import Mathlib

/-!
Verification development for the OPA in-process transactional document store.

The development shallowly embeds the storage core of the repository:
the path model (`v1/storage/path.go`, `v1/storage/interning.go`), the
tree-engine transaction (`v1/storage/inmem/txn.go`), the arena-engine
transaction (`storage/arena` transaction, helpers and patch files), the
arena node graph and scavenger (`v1/storage/arena/arena.go`,
`v1/storage/arena/node.go`) and the linked-list policy store
(`v1/storage/arena` PolicyStore).

Go strings are modelled as byte lists (`GoStr`), Go `storage.Path` as a
list of segments, Go maps as association lists, and in-place mutation as
explicit state passing.  String interning (`InternPathSegment`,
`unique.Handle`) is value-preserving in Go — equality of interned handles
is string equality — so it is embedded as the identity on byte strings.
-/

namespace OpaStore

/-- A Go string: a list of bytes. -/
abbrev GoStr := List Nat

/-- A storage path: a list of segments (`type Path []string`). -/
abbrev GoPath := List GoStr

/-- `InternPathSegment` (v1/storage/interning.go): returns a string that is
always value-equal to its argument (it only canonicalises the backing
pointer), so the embedding is the identity. -/
def internPathSegment (s : GoStr) : GoStr := s

/-- `shouldEscapePath` (v1/storage/path.go): bytes outside
`[A-Za-z0-9_.~-]` are percent-escaped. -/
def shouldEscapePath (c : Nat) : Bool :=
  if (97 ≤ c ∧ c ≤ 122) ∨ (65 ≤ c ∧ c ≤ 90) ∨ (48 ≤ c ∧ c ≤ 57) then false
  else if c = 45 ∨ c = 95 ∨ c = 46 ∨ c = 126 then false
  else true

/-- The byte `upperhex[n]` for a nibble `n` (`upperhex = "0123456789ABCDEF"`). -/
def upperhexDigit (n : Nat) : Nat :=
  if n < 10 then 48 + n else 55 + n

/-- Escaping of one byte inside `Path.String` (v1/storage/path.go):
write `%` and two uppercase hex digits when `shouldEscapePath`, else the
byte itself. -/
def escByte (c : Nat) : GoStr :=
  if shouldEscapePath c then [37, upperhexDigit (c / 16), upperhexDigit (c % 16)]
  else [c]

/-- Escaping of one segment inside `Path.String`. -/
def escSeg (s : GoStr) : GoStr := (s.map escByte).flatten

/-- `Path.String` (v1/storage/path.go): `/` for the root, else for each
segment a `/` followed by the escaped segment. -/
def pathString (p : GoPath) : GoStr :=
  if p.isEmpty then [47] else (p.map (fun s => 47 :: escSeg s)).flatten

/-- `strings.Split(s, "/")` on byte strings (Go semantics: splitting the
empty string yields one empty field). -/
def splitOnByte (d : Nat) : GoStr → List GoStr
  | [] => [[]]
  | c :: cs =>
    let r := splitOnByte d cs
    if c = d then [] :: r
    else
      match r with
      | [] => [[c]]
      | s :: ss => (c :: s) :: ss

/-- `ParsePath` (v1/storage/path.go): requires a leading `/`; `"/"` is the
root; otherwise split the remainder on `/` and intern each segment.  No
percent-decoding happens here. -/
def parsePath (s : GoStr) : Option GoPath :=
  match s with
  | [] => none
  | c :: rest =>
    if c ≠ 47 then none
    else if rest.isEmpty then some []
    else some ((splitOnByte 47 rest).map internPathSegment)

/-- `hexToInt` (v1/storage/path.go). -/
def hexToInt (c : Nat) : Option Nat :=
  if 48 ≤ c ∧ c ≤ 57 then some (c - 48)
  else if 97 ≤ c ∧ c ≤ 102 then some (c - 97 + 10)
  else if 65 ≤ c ∧ c ≤ 70 then some (c - 65 + 10)
  else none

/-- The `%HH` decoding loop of `unescapePathSegment`
(v1/storage/path.go): a `%` must be followed by two hex digits; other
bytes are copied. -/
def unescBytes : GoStr → Option GoStr
  | [] => some []
  | c :: rest =>
    if c = 37 then
      match rest with
      | h1 :: h2 :: rest' =>
        match hexToInt h1, hexToInt h2 with
        | some a, some b => (unescBytes rest').map (fun r => (a * 16 + b) :: r)
        | _, _ => none
      | _ => none
    else (unescBytes rest).map (fun r => c :: r)

/-- `unescapePathSegment` (v1/storage/path.go): fast path when the
segment holds no `%`, else run the decoding loop; the result is
interned. -/
def unescapePathSegment (s : GoStr) : Option GoStr :=
  if s.contains 37 then (unescBytes s).map internPathSegment
  else some (internPathSegment s)

/-- `ParsePathEscaped` (v1/storage/path.go): `ParsePath`, then decode
each segment. -/
def parsePathEscaped (s : GoStr) : Option GoPath := do
  let p ← parsePath s
  p.mapM unescapePathSegment

/-- `Path.Equal` (v1/storage/path.go): length check then per-index string
equality (the unsafe pointer comparison is only a fast path for the same
answer). -/
def pathEqual (p q : GoPath) : Bool := p == q

/-- `Path.HasPrefix` (v1/storage/path.go): `other` is at most as long as
`p` and the first `len(other)` segments are Equal. -/
def pathHasPrefix (p other : GoPath) : Bool :=
  other.length ≤ p.length && pathEqual (p.take other.length) other

theorem pathEqual_iff {p q : GoPath} : pathEqual p q = true ↔ p = q := by
  simp [pathEqual]

theorem pathHasPrefix_iff {p other : GoPath} :
    pathHasPrefix p other = true ↔ other <+: p := by
  constructor
  · intro h
    simp only [pathHasPrefix, Bool.and_eq_true, decide_eq_true_eq, pathEqual_iff] at h
    exact ⟨p.drop other.length, by rw [← h.2]; simp [Nat.min_eq_left h.1]⟩
  · rintro ⟨t, rfl⟩
    simp [pathHasPrefix, pathEqual, List.take_left]

/-! ### Round-trip lemmas for `Path.String` and `ParsePathEscaped` -/

theorem shouldEscapePath_37 : shouldEscapePath 37 = true := by decide

theorem shouldEscapePath_47 : shouldEscapePath 47 = true := by decide

theorem upperhexDigit_ne_47 {n : Nat} : upperhexDigit n ≠ 47 := by
  unfold upperhexDigit
  split <;> omega

theorem upperhexDigit_ne_37 {n : Nat} : upperhexDigit n ≠ 37 := by
  unfold upperhexDigit
  split <;> omega

theorem hexToInt_upperhexDigit {n : Nat} (h : n < 16) :
    hexToInt (upperhexDigit n) = some n := by
  unfold hexToInt upperhexDigit
  by_cases h10 : n < 10
  · simp only [if_pos h10]
    rw [if_pos (by omega)]
    congr 1
    omega
  · simp only [if_neg h10]
    rw [if_neg (by omega), if_neg (by omega), if_pos (by omega)]
    congr 1
    omega

theorem escByte_not_mem_47 {c : Nat} : 47 ∉ escByte c := by
  unfold escByte
  split
  · intro hm
    simp only [List.mem_cons, List.not_mem_nil, or_false] at hm
    rcases hm with h | h | h
    · omega
    · exact upperhexDigit_ne_47 h.symm
    · exact upperhexDigit_ne_47 h.symm
  · next hesc =>
    intro hm
    simp only [List.mem_singleton] at hm
    rw [← hm] at hesc
    exact hesc shouldEscapePath_47

theorem escSeg_not_mem_47 {s : GoStr} : 47 ∉ escSeg s := by
  simp only [escSeg, List.mem_flatten]
  rintro ⟨l, hl, hm⟩
  rw [List.mem_map] at hl
  obtain ⟨c, _, rfl⟩ := hl
  exact escByte_not_mem_47 hm

theorem splitOnByte_of_not_mem {d : Nat} {x : GoStr}
    (h : d ∉ x) : splitOnByte d x = [x] := by
  induction x with
  | nil => rfl
  | cons c cs ih =>
    simp only [List.mem_cons, not_or] at h
    have hcd : ¬ c = d := fun hc => h.1 hc.symm
    rw [splitOnByte]
    simp only [if_neg hcd]
    rw [ih h.2]

theorem splitOnByte_append {d : Nat} {x rest : GoStr}
    (h : d ∉ x) :
    splitOnByte d (x ++ d :: rest) = x :: splitOnByte d rest := by
  induction x with
  | nil => simp [splitOnByte]
  | cons c cs ih =>
    simp only [List.mem_cons, not_or] at h
    have hcd : ¬ c = d := fun hc => h.1 hc.symm
    rw [List.cons_append, splitOnByte]
    simp only [if_neg hcd]
    rw [ih h.2]

/-- All bytes of every segment are in fact bytes (`< 256`); Go strings
guarantee this, the Lean model states it as a side condition. -/
def ByteValidPath (p : GoPath) : Prop := ∀ s ∈ p, ∀ c ∈ s, c < 256

theorem unescBytes_cons_ne {c : Nat} {rest : GoStr} (hc : c ≠ 37) :
    unescBytes (c :: rest) = (unescBytes rest).map (fun r => c :: r) := by
  rw [unescBytes.eq_def]
  simp [hc]

theorem unescBytes_percent {x y : Nat} {rest : GoStr} {a b : Nat}
    (hx : hexToInt x = some a) (hy : hexToInt y = some b) :
    unescBytes (37 :: x :: y :: rest) =
      (unescBytes rest).map (fun r => (a * 16 + b) :: r) := by
  rw [unescBytes.eq_def]
  simp [hx, hy]

theorem escSeg_cons (c : Nat) (cs : GoStr) :
    escSeg (c :: cs) = escByte c ++ escSeg cs := by
  simp [escSeg]

theorem unescBytes_escSeg {s : GoStr} (hb : ∀ c ∈ s, c < 256) :
    unescBytes (escSeg s) = some s := by
  induction s with
  | nil => rfl
  | cons c cs ih =>
    have hc : c < 256 := hb c (by simp)
    have ihr := ih (fun x hx => hb x (by simp [hx]))
    rw [escSeg_cons]
    rcases hsplit : shouldEscapePath c with _ | _
    · rw [show escByte c = [c] by simp [escByte, hsplit]]
      have hne : c ≠ 37 := by
        intro hc37
        rw [hc37] at hsplit
        rw [shouldEscapePath_37] at hsplit
        cases hsplit
      rw [List.singleton_append, unescBytes_cons_ne hne, ihr]
      rfl
    · rw [show escByte c = [37, upperhexDigit (c / 16), upperhexDigit (c % 16)] by
        simp [escByte, hsplit]]
      rw [show ([37, upperhexDigit (c / 16), upperhexDigit (c % 16)] ++ escSeg cs : GoStr) =
        37 :: upperhexDigit (c / 16) :: upperhexDigit (c % 16) :: escSeg cs from rfl]
      rw [unescBytes_percent (hexToInt_upperhexDigit (by omega))
        (hexToInt_upperhexDigit (by omega)), ihr]
      simp only [Option.map_some']
      congr 2
      omega

theorem escSeg_eq_of_not_mem_37 {s : GoStr}
    (h : 37 ∉ escSeg s) : escSeg s = s := by
  induction s with
  | nil => rfl
  | cons c cs ih =>
    rw [escSeg_cons] at h ⊢
    rcases hsplit : shouldEscapePath c with _ | _
    · rw [show escByte c = [c] by simp [escByte, hsplit]] at h ⊢
      simp only [List.singleton_append, List.mem_cons, not_or] at h
      simp only [List.singleton_append, List.cons.injEq, true_and]
      exact ih h.2
    · exfalso
      apply h
      rw [show escByte c = [37, upperhexDigit (c / 16), upperhexDigit (c % 16)] by
        simp [escByte, hsplit]]
      simp

theorem unescapePathSegment_escSeg {s : GoStr} (hb : ∀ c ∈ s, c < 256) :
    unescapePathSegment (escSeg s) = some s := by
  unfold unescapePathSegment
  split
  · rw [unescBytes_escSeg hb]
    rfl
  · next h =>
    rw [escSeg_eq_of_not_mem_37 (by simpa using h)]
    rfl

theorem splitOnByte_pathString {p : GoPath} (hp : p ≠ []) :
    ∃ tail, pathString p = 47 :: tail ∧ splitOnByte 47 tail = p.map escSeg := by
  induction p with
  | nil => exact absurd rfl hp
  | cons s ps ih =>
    cases ps with
    | nil =>
      refine ⟨escSeg s, ?_, ?_⟩
      · simp [pathString]
      · rw [splitOnByte_of_not_mem escSeg_not_mem_47]
        rfl
    | cons s2 ps2 =>
      obtain ⟨tail2, htail2, hsplit2⟩ := ih (by simp)
      refine ⟨escSeg s ++ 47 :: tail2, ?_, ?_⟩
      · have : pathString (s :: s2 :: ps2) = (47 :: escSeg s) ++ pathString (s2 :: ps2) := by
          simp [pathString]
        rw [this, htail2]
        simp
      · rw [splitOnByte_append escSeg_not_mem_47, hsplit2]
        rfl

/-- `escSeg` of a nonempty segment is nonempty. -/
theorem escSeg_ne_nil {s : GoStr} (h : s ≠ []) : escSeg s ≠ [] := by
  cases s with
  | nil => exact absurd rfl h
  | cons c cs =>
    show escByte c ++ (cs.map escByte).flatten ≠ []
    unfold escByte
    split <;> simp

theorem mapM_unescape_escSeg {p : GoPath} (hb : ByteValidPath p) :
    (p.map escSeg).mapM unescapePathSegment = some p := by
  induction p with
  | nil => rfl
  | cons s ps ih =>
    have hs := unescapePathSegment_escSeg (fun c hc => hb s (by simp) c hc)
    have hps := ih (fun t ht c hc => hb t (by simp [ht]) c hc)
    rw [List.map_cons, List.mapM_cons, hs, hps]
    rfl

/-- `ParsePathEscaped (p.String())` recovers `p` for every byte-valid path
other than the one-empty-segment path `[""]` (whose printed form `"/"`
collides with the root path). -/
theorem parsePathEscaped_pathString {p : GoPath} (hb : ByteValidPath p)
    (hne : p ≠ [[]]) : parsePathEscaped (pathString p) = some p := by
  cases hp : p with
  | nil => rfl
  | cons s ps =>
    obtain ⟨tail, htail, hsplit⟩ := splitOnByte_pathString (p := s :: ps) (by simp)
    have htne : tail ≠ [] := by
      intro ht
      rw [ht] at hsplit
      cases ps with
      | nil =>
        rw [splitOnByte] at hsplit
        simp only [List.map_cons, List.map_nil, List.cons.injEq, and_true] at hsplit
        have hs : s = [] := by
          have := escSeg_ne_nil (s := s)
          by_contra hsne
          exact this hsne hsplit.symm
        rw [hp, hs] at hne
        exact hne rfl
      | cons s2 ps2 =>
        rw [splitOnByte] at hsplit
        simp at hsplit
    rw [hp] at hb
    rw [htail]
    unfold parsePathEscaped parsePath
    simp only [ne_eq, not_true_eq_false, if_false, ite_not, List.isEmpty_eq_true, if_neg htne,
      Option.bind_eq_bind, Option.some_bind]
    rw [show (splitOnByte 47 tail).map internPathSegment = splitOnByte 47 tail from
      List.map_id'' (fun a => rfl) _]
    rw [hsplit]
    rw [mapM_unescape_escSeg hb]

/-- `Path.String` is injective away from the `[]` / `[""]` collision, for
byte-valid paths. -/
theorem pathString_injective {p q : GoPath} (hbp : ByteValidPath p)
    (hbq : ByteValidPath q) (hpe : p ≠ [[]]) (hqe : q ≠ [[]])
    (h : pathString p = pathString q) : p = q := by
  have h1 := parsePathEscaped_pathString hbp hpe
  have h2 := parsePathEscaped_pathString hbq hqe
  rw [h] at h1
  exact Option.some_injective _ (h1.symm.trans h2)

/-- C5 counterexample input: the single-segment path `[" "]` (one space). -/
def c5CounterPath : GoPath := [[32]]

/--
C5 (counterexample): the claim states `ParsePath(p.String())` succeeds and
returns a path Equal to `p`.  For `p = [" "]`, `String` yields `"/%20"`
and `ParsePath` — which performs no percent-decoding — returns the
one-segment path `"%20"`, which is not Equal to `[" "]`.
-/
theorem c5_parsePath_roundtrip_counterexample :
    parsePath (pathString c5CounterPath) = some [[37, 50, 48]] ∧
      pathEqual [[37, 50, 48]] c5CounterPath = false := by
  constructor
  · rfl
  · rfl

/--
C5 (amended): for every byte-valid path `p` other than the
one-empty-segment path, `ParsePathEscaped(p.String())` succeeds and
returns a path Equal to `p`, where `String` emits `/` followed by the
segments joined by `/` with bytes outside `[A-Za-z0-9_.~-]`
percent-encoded in uppercase hex.
-/
theorem c5_parsePathEscaped_roundtrip (p : GoPath) (hb : ByteValidPath p)
    (hne : p ≠ [[]]) :
    ∃ q, parsePathEscaped (pathString p) = some q ∧ pathEqual q p = true := by
  exact ⟨p, parsePathEscaped_pathString hb hne, by simp [pathEqual]⟩

/-- C5 witness: the amended round-trip at the concrete path `["a b"]`. -/
theorem c5_parsePathEscaped_roundtrip_witness :
    ∃ q, parsePathEscaped (pathString [[97, 32, 98]]) = some q ∧
      pathEqual q [[97, 32, 98]] = true :=
  c5_parsePathEscaped_roundtrip [[97, 32, 98]]
    (by intro s hs c hc; simp at hs; subst hs; simp at hc; omega)
    (by simp)

/-! ## Values

Go `any` documents: JSON-like values.  The tree engine stores numbers as
`json.Number` (a decimal string, constructor `num`); the arena engine
receives Go `int` values (constructor `int`).  Floats are outside the
scope of the embedded claims and are omitted. -/

inductive GoValue where
  | null : GoValue
  | bool : Bool → GoValue
  | int : Int → GoValue
  | num : GoStr → GoValue
  | str : GoStr → GoValue
  | obj : List (GoStr × GoValue) → GoValue
  | arr : List GoValue → GoValue

instance : Inhabited GoValue := ⟨GoValue.null⟩

/-- Association-list lookup, embedding Go map indexing. -/
def alookup {α : Type} : List (GoStr × α) → GoStr → Option α
  | [], _ => none
  | (k, v) :: rest, key => if k = key then some v else alookup rest key

/-- Association-list insert-or-replace, embedding Go map assignment. -/
def ainsert {α : Type} : List (GoStr × α) → GoStr → α → List (GoStr × α)
  | [], key, v => [(key, v)]
  | (k, w) :: rest, key, v =>
    if k = key then (key, v) :: rest else (k, w) :: ainsert rest key v

/-- Association-list removal, embedding Go `delete`. -/
def aerase {α : Type} : List (GoStr × α) → GoStr → List (GoStr × α)
  | [], _ => []
  | (k, w) :: rest, key => if k = key then rest else (k, w) :: aerase rest key

/-- `storage.PatchOp`. -/
inductive PatchOp where
  | add
  | replace
  | remove
  deriving DecidableEq

/-- The error kinds surfaced by the embedded code paths.  `outOfRange`
stands for the Go runtime panic on an out-of-bounds slice index. -/
inductive TErr where
  | notFound
  | invalidTransaction
  | invalidPatch
  | internal
  | rootMustBeObject
  | rootCannotBeRemoved
  | outOfRange
  deriving DecidableEq

/-- Decimal rendering of a natural number (`strconv.Itoa` on `Nat`). -/
def natToDecStr (n : Nat) : GoStr :=
  (Nat.toDigits 10 n).map Char.toNat

/-- Decimal parsing of an array index: all digits, nonempty
(`strconv.Atoi` restricted to the values `ValidateArrayIndex` accepts). -/
def parseDecimal (s : GoStr) : Option Nat :=
  if s ≠ [] ∧ s.all (fun c => 48 ≤ c && c ≤ 57) then
    some (s.foldl (fun acc c => acc * 10 + (c - 48)) 0)
  else none

/-- Modelled from the spec: `internal/ptr.ValidateArrayIndex` is not under
src/; per the spec (§4.2, §4.3) array positions are decimal indices and
out-of-range or non-numeric positions are `NotFound`. -/
def validateArrayIndex (len : Nat) (s : GoStr) : Except TErr Nat :=
  match parseDecimal s with
  | some n => if n < len then .ok n else .error .notFound
  | none => .error .notFound

/-- Modelled from the spec: `internal/ptr.Ptr` is not under src/; per the
spec (§4.3 Read) it is a deep pointer walk of the document — object
fields by key, array elements by decimal index; navigating into a scalar
or a missing key/index yields `NotFound`. -/
def ptrGet : GoValue → GoPath → Except TErr GoValue
  | v, [] => .ok v
  | .obj fields, k :: rest =>
    match alookup fields k with
    | some v => ptrGet v rest
    | none => .error .notFound
  | .arr elems, k :: rest =>
    match parseDecimal k with
    | some n =>
      if h : n < elems.length then ptrGet (elems.get ⟨n, h⟩) rest
      else .error .notFound
    | none => .error .notFound
  | _, _ :: _ => .error .notFound

/-- `updateRaw` (txn.go): a pending data update. -/
structure UpdateRaw where
  path : GoPath
  value : GoValue
  remove : Bool

instance : Inhabited UpdateRaw := ⟨⟨[], .null, false⟩⟩

/-- `comparableEquals` (txn.go): strictly-typed scalar equality over
nil/bool/string/`json.Number`; everything else compares unequal. -/
def comparableEquals : GoValue → GoValue → Bool
  | .null, .null => true
  | .bool a, .bool b => a == b
  | .str a, .str b => a == b
  | .num a, .num b => a == b
  | _, _ => false

/- The `fuel` parameters below only bound the Lean recursion depth; the
wrappers pass a fuel larger than any reachable call chain (each call
consumes one unit and recursion is bounded by the path length), so the
exhaustion branches are unreachable. -/

mutual

/-- `newUpdateRaw` (txn.go): materialise an update for `op` at `path`
(from position `idx`) against `data`. -/
def newUpdateRawF : Nat → GoValue → PatchOp → GoPath → Nat → GoValue →
    Except TErr UpdateRaw
  | 0, _, _, _, _, _ => .error .internal
  | fuel + 1, data, op, path, idx, value =>
    match data with
    | .null => .error .notFound
    | .bool _ => .error .notFound
    | .num _ => .error .notFound
    | .str _ => .error .notFound
    | .obj fields => newUpdateObjectF fuel fields op path idx value
    | .arr elems => newUpdateArrayF fuel elems op path idx value
    | .int _ => .error .internal

/-- `newUpdateArray` (txn.go). -/
def newUpdateArrayF : Nat → List GoValue → PatchOp → GoPath → Nat → GoValue →
    Except TErr UpdateRaw
  | 0, _, _, _, _, _ => .error .internal
  | fuel + 1, data, op, path, idx, value =>
    if idx = path.length - 1 then
      if path.getD idx [] = [45] ∨ path.getD idx [] = natToDecStr data.length then
        if op ≠ .add then .error .invalidPatch
        else .ok ⟨path.take (path.length - 1), .arr (data ++ [value]), false⟩
      else
        match validateArrayIndex data.length (path.getD idx []) with
        | .error e => .error e
        | .ok pos =>
          match op with
          | .add => .ok ⟨path.take (path.length - 1), .arr (data.insertIdx pos value), false⟩
          | .remove => .ok ⟨path.take (path.length - 1), .arr (data.eraseIdx pos), false⟩
          | .replace => .ok ⟨path.take (path.length - 1), .arr (data.set pos value), false⟩
    else
      match validateArrayIndex data.length (path.getD idx []) with
      | .error e => .error e
      | .ok pos => newUpdateRawF fuel (data.getD pos .null) op path (idx + 1) value

/-- `newUpdateObject` (txn.go). -/
def newUpdateObjectF : Nat → List (GoStr × GoValue) → PatchOp → GoPath → Nat →
    GoValue → Except TErr UpdateRaw
  | 0, _, _, _, _, _ => .error .internal
  | fuel + 1, data, op, path, idx, value =>
    if idx = path.length - 1 then
      match op with
      | .add => .ok ⟨path, value, false⟩
      | .replace =>
        match alookup data (path.getD idx []) with
        | none => .error .notFound
        | some _ => .ok ⟨path, value, false⟩
      | .remove =>
        match alookup data (path.getD idx []) with
        | none => .error .notFound
        | some _ => .ok ⟨path, value, true⟩
    else
      match alookup data (path.getD idx []) with
      | some d => newUpdateRawF fuel d op path (idx + 1) value
      | none => .error .notFound

end

/-- `newUpdateRaw` at ample fuel. -/
def newUpdateRaw (data : GoValue) (op : PatchOp) (path : GoPath) (idx : Nat)
    (value : GoValue) : Except TErr UpdateRaw :=
  newUpdateRawF (2 * path.length + 4) data op path idx value

/-- The walk-and-mutate core of `updateRaw.Apply` (txn.go): navigate to
the parent of the path, then delete / assign there.  Go panics when the
walk fails or the parent has an unexpected shape; the functional
embedding returns the data unchanged on those branches (they are
unreachable for updates built by `newUpdateRaw` against this data). -/
def applyRawGo : GoValue → GoPath → GoValue → Bool → GoValue
  | d, [], _, _ => d
  | d, [k], v, remove =>
    match d with
    | .obj fields =>
      if remove then .obj (aerase fields k) else .obj (ainsert fields k v)
    | .arr elems =>
      if remove then .arr elems
      else
        match parseDecimal k with
        | some n => if n < elems.length then .arr (elems.set n v) else .arr elems
        | none => .arr elems
    | other => other
  | d, k :: rest, v, remove =>
    match d with
    | .obj fields =>
      match alookup fields k with
      | some c => .obj (ainsert fields k (applyRawGo c rest v remove))
      | none => .obj fields
    | .arr elems =>
      match parseDecimal k with
      | some n =>
        if h : n < elems.length then
          .arr (elems.set n (applyRawGo (elems.get ⟨n, h⟩) rest v remove))
        else .arr elems
      | none => .arr elems
    | other => other

/-- `updateRaw.Apply` (txn.go). -/
def applyRaw (u : UpdateRaw) (data : GoValue) : GoValue :=
  if u.path = [] then u.value else applyRawGo data u.path u.value u.remove

/-- `updateRaw.Relative` (txn.go). -/
def relativeUpdate (u : UpdateRaw) (path : GoPath) : UpdateRaw :=
  { u with path := u.path.drop path.length }

/-- Modelled from the spec: the inmem `store` struct is not under src/
(only txn.go is); the transaction consumes its committed `data` document
and the count of registered triggers.  `returnASTValuesOnRead` is off
(raw values), matching the code paths the claims cite. -/
structure TreeStore where
  data : GoValue
  triggersCount : Nat

/-- The `transaction` struct of txn.go (tree engine), restricted to the
fields the data-write path consumes. -/
structure TreeTxn where
  updates : List UpdateRaw
  pathIndex : Option (List (GoStr × Nat))
  write : Bool

/-- The adaptive-index threshold (txn.go, `pathIndexThreshold`). -/
def pathIndexThreshold : Nat := 16

/-- `transaction.initPathIndex` (txn.go): build the path-string → index
map from the existing updates. -/
def initPathIndex (txn : TreeTxn) : TreeTxn :=
  match txn.pathIndex with
  | some _ => txn
  | none =>
    { txn with
      pathIndex :=
        some (txn.updates.enum.foldl
          (fun m iu => ainsert m (pathString iu.2.path) iu.1) []) }

/-- `transaction.removeUpdate` (txn.go): delete the update at `idx`,
maintain the path index (delete its entry, shift larger indices down). -/
def removeUpdate (txn : TreeTxn) (idx : Nat) : TreeTxn :=
  if txn.updates.length ≤ idx then txn
  else
    let pathStr := pathString ((txn.updates.getD idx default).path)
    { txn with
      updates := txn.updates.eraseIdx idx,
      pathIndex := txn.pathIndex.map (fun m =>
        (aerase m pathStr).map (fun kv =>
          if idx < kv.2 then (kv.1, kv.2 - 1) else kv)) }

/-- `transaction.updateRoot` (txn.go): replace the whole transaction's
pending updates by one root update (the path index is left untouched —
faithfully to the source). -/
def treeUpdateRoot (txn : TreeTxn) (op : PatchOp) (value : GoValue) :
    TreeTxn × Option TErr :=
  if op = .remove then (txn, some .rootCannotBeRemoved)
  else
    match value with
    | .obj _ => ({ txn with updates := [⟨[], value, false⟩] }, none)
    | _ => (txn, some .rootMustBeObject)

/-- The exact-match phase of `transaction.Write` (txn.go): `.error` is an
early return of the whole write; `.ok` continues with the (possibly
compacted) transaction. -/
def treeWriteExact (txn : TreeTxn) (op : PatchOp) (path : GoPath)
    (value : GoValue) : Except (TreeTxn × Option TErr) TreeTxn :=
  match txn.pathIndex with
  | some m =>
    match alookup m (pathString path) with
    | some idx =>
      match txn.updates.get? idx with
      | none => .error (txn, some .outOfRange)
      | some u =>
        if u.remove ∧ op ≠ .add then .error (txn, some .notFound)
        else if comparableEquals u.value value then .error (txn, none)
        else .ok (removeUpdate txn idx)
    | none => .ok txn
  | none =>
    match txn.updates.findIdx? (fun u => pathEqual u.path path) with
    | some i =>
      match txn.updates.get? i with
      | none => .error (txn, some .outOfRange)
      | some u =>
        if u.remove ∧ op ≠ .add then .error (txn, some .notFound)
        else if comparableEquals u.value value then .error (txn, none)
        else .ok { txn with updates := txn.updates.eraseIdx i }
    | none => .ok txn

/-- The prefix loop of `transaction.Write` (txn.go): either the first
index whose update's path is a (non-strict) prefix of the written path
(the fold case), or the list of indices masked by the new path. -/
def scanPrefix : List UpdateRaw → GoPath → Nat →
    Except (Nat × UpdateRaw) (List Nat)
  | [], _, _ => .ok []
  | u :: rest, path, i =>
    if pathHasPrefix u.path path then
      (scanPrefix rest path (i + 1)).map (fun l => i :: l)
    else if pathHasPrefix path u.path then .error (i, u)
    else scanPrefix rest path (i + 1)

/-- The tail of `transaction.Write` (txn.go) after the exact phase:
prefix scan, fold-in-place or mask removal, then materialise and prepend
the new update and maintain the index. -/
def treeWritePrefix (db : TreeStore) (txn : TreeTxn) (op : PatchOp)
    (path : GoPath) (value : GoValue) : TreeTxn × Option TErr :=
  match scanPrefix txn.updates path 0 with
  | .error hit =>
    if hit.2.remove then (txn, some .notFound)
    else
      match newUpdateRaw hit.2.value op (path.drop hit.2.path.length) 0 value with
      | .error e => (txn, some e)
      | .ok nu =>
        ({ txn with
           updates := txn.updates.set hit.1
             { hit.2 with value := applyRaw nu hit.2.value } }, none)
  | .ok toRemove =>
    let txn := toRemove.reverse.foldl removeUpdate txn
    match newUpdateRaw db.data op path 0 value with
    | .error e => (txn, some e)
    | .ok u =>
      ({ txn with
         updates := u :: txn.updates,
         pathIndex := txn.pathIndex.map (fun m =>
           ainsert (m.map (fun kv => (kv.1, kv.2 + 1))) (pathString path) 0) },
        none)

/-- `transaction.Write` (txn.go), tree engine. -/
def treeWrite (db : TreeStore) (txn : TreeTxn) (op : PatchOp) (path : GoPath)
    (value : GoValue) : TreeTxn × Option TErr :=
  if txn.write = false then (txn, some .invalidTransaction)
  else if path = [] then treeUpdateRoot txn op value
  else
    let txn :=
      if txn.pathIndex = none ∧ pathIndexThreshold ≤ txn.updates.length then
        initPathIndex txn
      else txn
    match treeWriteExact txn op path value with
    | .error r => r
    | .ok txn => treeWritePrefix db txn op path value

/-- The scan loop of `transaction.Read` (txn.go): an early result when a
pending update's path prefixes the query path, else the collected child
updates to merge. -/
def collectRead : List UpdateRaw → GoPath → Option (Except TErr GoValue) × List UpdateRaw
  | [], _ => (none, [])
  | u :: rest, path =>
    if pathHasPrefix path u.path then
      (some (if u.remove then .error .notFound
             else ptrGet u.value (path.drop u.path.length)), [])
    else
      let r := collectRead rest path
      if pathHasPrefix u.path path then (r.1, u :: r.2) else r

/-- `transaction.Read` (txn.go), tree engine.  `deepcpy` is the identity
in the persistent-value embedding. -/
def treeRead (db : TreeStore) (txn : TreeTxn) (path : GoPath) :
    Except TErr GoValue :=
  if txn.write = false ∨ txn.updates.isEmpty then ptrGet db.data path
  else
    match collectRead txn.updates path with
    | (some r, _) => r
    | (none, merge) =>
      match ptrGet db.data path with
      | .error e => .error e
      | .ok data =>
        if merge.isEmpty then .ok data
        else .ok (merge.foldl (fun cpy u => applyRaw (relativeUpdate u path) cpy) data)

/-- A per-update entry of a `storage.TriggerEvent` (`storage.DataEvent`). -/
structure DataEvent where
  path : GoPath
  data : GoValue
  removed : Bool

/-- `transaction.Commit` (txn.go), tree engine, data part: iterate the
update slice in order, apply each to the committed data, and (when
triggers are registered) append its event entry in the same order. -/
def treeCommit (db : TreeStore) (txn : TreeTxn) : TreeStore × List DataEvent :=
  let hasTriggers := 0 < db.triggersCount
  let step := fun (acc : GoValue × List DataEvent) (u : UpdateRaw) =>
    (applyRaw u acc.1,
     if hasTriggers then acc.2 ++ [⟨u.path, u.value, u.remove⟩] else acc.2)
  let r := txn.updates.foldl step (db.data, [])
  ({ db with data := r.1 }, r.2)

/-! ## Arena node graph (v1/storage/arena/node.go, arena.go)

The segmented node array is flattened to one list (`idx / SegmentSize`,
`idx % SegmentSize` is memory layout only); `nodeCnt` is the list
length.  `unique.Handle` interning is value-preserving, so handles are
plain byte strings.  Atomic counters and CAS loops collapse to plain
state updates in this single-threaded embedding. -/

/-- `ValueType` (node.go). -/
inductive VType where
  | free
  | int
  | float
  | bool
  | str
  | obj
  | arr
  | null
  | tomb
  deriving DecidableEq

/-- `Node` (node.go): `vRaw` holds the integer value, the 0/1 encoding of
a boolean, or the child-chain head index of a composite. -/
structure ANode where
  key : GoStr
  vStr : GoStr
  vRaw : Int
  next : Int
  vType : VType
  deriving DecidableEq

/-- `Node.Reset` applied to a fresh node. -/
def resetNode : ANode := ⟨[], [], 0, -1, .free⟩

def ANode.setInt (v : Int) (n : ANode) : ANode :=
  { n with vType := .int, vRaw := v, vStr := [] }

def ANode.setBool (v : Bool) (n : ANode) : ANode :=
  { n with vType := .bool, vRaw := if v then 1 else 0, vStr := [] }

def ANode.setString (v : GoStr) (n : ANode) : ANode :=
  { n with vType := .str, vStr := v, vRaw := 0 }

def ANode.setNull (n : ANode) : ANode :=
  { n with vType := .null, vRaw := 0, vStr := [] }

def ANode.setObject (childIdx : Int) (n : ANode) : ANode :=
  { n with vType := .obj, vRaw := childIdx, vStr := [] }

def ANode.setArray (childIdx : Int) (n : ANode) : ANode :=
  { n with vType := .arr, vRaw := childIdx, vStr := [] }

def ANode.setKey (k : GoStr) (n : ANode) : ANode := { n with key := k }

def ANode.markTombstone (n : ANode) : ANode := { n with vType := .tomb }

/-- The arena state (`Arena` of arena.go), restricted to the fields the
data path consumes.  The trigger map is represented by its size. -/
structure ArenaSt where
  nodes : List ANode
  freeHead : Int
  rootIdx : Int
  triggersCount : Nat
  commitCount : Nat

/-- `Arena.getNode`: `nil` for a negative index; indices past the
allocated area are also mapped to `none`. -/
def ArenaSt.node? (a : ArenaSt) (idx : Int) : Option ANode :=
  if 0 ≤ idx then a.nodes[idx.toNat]? else none

/-- Write the node at `idx` (no-op outside the allocated area). -/
def ArenaSt.setNode (a : ArenaSt) (idx : Int) (n : ANode) : ArenaSt :=
  if 0 ≤ idx then { a with nodes := a.nodes.set idx.toNat n } else a

/-- Read-modify-write of the node at `idx`. -/
def modNode (a : ArenaSt) (idx : Int) (f : ANode → ANode) : ArenaSt :=
  match a.node? idx with
  | some nd => a.setNode idx (f nd)
  | none => a

/-- `Arena.alloc` (arena.go): pop the freelist head (resetting the
node), else claim the next linear index (the lazy segment creation is
memory layout). -/
def arenaAlloc (a : ArenaSt) : ArenaSt × Int :=
  match a.node? a.freeHead with
  | some nd =>
    let idx := a.freeHead
    ((({ a with freeHead := nd.next }).setNode idx resetNode), idx)
  | none =>
    let idx := (a.nodes.length : Int)
    ({ a with nodes := a.nodes ++ [resetNode] }, idx)

/-- `Arena.free` (arena.go): reset the node, link it to the old freelist
head, and point the freelist at it. -/
def arenaFree (a : ArenaSt) (idx : Int) : ArenaSt :=
  if idx < 0 then a
  else
    match a.node? idx with
    | none => a
    | some _ =>
      let a := a.setNode idx { resetNode with next := a.freeHead }
      { a with freeHead := idx }

/-- The yield condition of `Arena.scavenge` (arena.go): the loop calls
`runtime.Gosched()` when `i % 1000 == 0`. -/
def scavYieldsAt (i : Nat) : Bool := i % 1000 == 0

/-- One iteration of the `Arena.scavenge` loop (arena.go): free the node
at index `i` when its (atomically loaded) type is Tombstone; yield when
`scavYieldsAt`. -/
def scavStep (acc : ArenaSt × List Nat × List Nat) (i : Nat) :
    ArenaSt × List Nat × List Nat :=
  let fr : ArenaSt × List Nat :=
    match acc.1.node? (Int.ofNat i) with
    | some nd =>
      if nd.vType = .tomb then (arenaFree acc.1 (Int.ofNat i), acc.2.1 ++ [i])
      else (acc.1, acc.2.1)
    | none => (acc.1, acc.2.1)
  (fr.1, fr.2, if scavYieldsAt i then acc.2.2 ++ [i] else acc.2.2)

/-- `Arena.scavenge` (arena.go), instrumented with the list of freed
indices and the list of scan indices at which the loop yields the CPU:
scan indices `0 ≤ i < nodeCnt` in order. -/
def arenaScavenge (a : ArenaSt) : ArenaSt × List Nat × List Nat :=
  (List.range a.nodes.length).foldl scavStep (a, [], [])

/-! ### Scavenger lemmas (C7) -/

/-- Whether the node at index `i` is a tombstone. -/
def tombAt (a : ArenaSt) (i : Nat) : Bool :=
  match a.node? (Int.ofNat i) with
  | some nd => nd.vType == .tomb
  | none => false

/-- The freelist of the arena, as the chain of node indices starting at a
head: `-1` ends the chain, every member is a Free node whose `next`
continues the chain. -/
inductive FreeChain (a : ArenaSt) : Int → List Nat → Prop where
  | nil : FreeChain a (-1) []
  | cons (i : Nat) (nd : ANode) (l : List Nat) :
      a.node? (Int.ofNat i) = some nd → nd.vType = .free →
      FreeChain a nd.next l → FreeChain a (Int.ofNat i) (i :: l)

theorem FreeChain.mem_free {a : ArenaSt} {c : Int} {l : List Nat}
    (h : FreeChain a c l) :
    ∀ j ∈ l, ∃ nd, a.node? (Int.ofNat j) = some nd ∧ nd.vType = .free := by
  induction h with
  | nil => intro j hj; cases hj
  | cons i nd l hnode hfree _ ih =>
    intro j hj
    rcases List.mem_cons.mp hj with rfl | hj
    · exact ⟨nd, hnode, hfree⟩
    · exact ih j hj

theorem setNode_nodes_length (a : ArenaSt) (idx : Int) (n : ANode) :
    (a.setNode idx n).nodes.length = a.nodes.length := by
  unfold ArenaSt.setNode
  split <;> simp

theorem arenaFree_nodes_length (a : ArenaSt) (idx : Int) :
    (arenaFree a idx).nodes.length = a.nodes.length := by
  unfold arenaFree
  split
  · rfl
  · split
    · rfl
    · simp [setNode_nodes_length]

theorem setNode_node?_ne {a : ArenaSt} {idx k : Int} (n : ANode)
    (h : idx ≠ k) : (a.setNode idx n).node? k = a.node? k := by
  unfold ArenaSt.setNode ArenaSt.node?
  split
  · next hpos =>
    split
    · next hk =>
      simp only
      rw [List.getElem?_set_ne]
      omega
    · rfl
  · rfl

theorem arenaFree_node?_ne {a : ArenaSt} {idx k : Int} (h : idx ≠ k) :
    (arenaFree a idx).node? k = a.node? k := by
  unfold arenaFree
  split
  · rfl
  · split
    · rfl
    · exact setNode_node?_ne _ h

theorem arenaFree_node?_self {a : ArenaSt} {idx : Int} {nd : ANode}
    (h : a.node? idx = some nd) :
    (arenaFree a idx).node? idx = some { resetNode with next := a.freeHead } := by
  have hpos : 0 ≤ idx := by
    by_contra hneg
    unfold ArenaSt.node? at h
    rw [if_neg hneg] at h
    cases h
  have hlt : idx.toNat < a.nodes.length := by
    unfold ArenaSt.node? at h
    rw [if_pos hpos] at h
    exact List.getElem?_eq_some.mp h |>.1
  unfold arenaFree
  rw [if_neg (by omega)]
  rw [h]
  show (ArenaSt.node? _ idx) = _
  unfold ArenaSt.setNode ArenaSt.node?
  rw [if_pos hpos]
  simp only [if_pos hpos]
  rw [List.getElem?_set_self (by simpa using hlt)]

theorem arenaFree_freeHead {a : ArenaSt} {idx : Int} {nd : ANode}
    (h : a.node? idx = some nd) : (arenaFree a idx).freeHead = idx := by
  have hpos : 0 ≤ idx := by
    by_contra hneg
    unfold ArenaSt.node? at h
    rw [if_neg hneg] at h
    cases h
  unfold arenaFree
  rw [if_neg (by omega), h]

/-- Framing: a chain is unaffected by a state change that keeps every
node of the chain (and the lengths) intact. -/
theorem FreeChain.frame {a a' : ArenaSt} {c : Int} {l : List Nat}
    (h : FreeChain a c l)
    (hsame : ∀ j ∈ l, a'.node? (Int.ofNat j) = a.node? (Int.ofNat j)) :
    FreeChain a' c l := by
  induction h with
  | nil => exact .nil
  | cons i nd l hnode hfree _ ih =>
    refine .cons i nd l ?_ hfree (ih ?_)
    · rw [hsame i (by simp)]
      exact hnode
    · intro j hj
      exact hsame j (by simp [hj])

/-- Freeing a tombstone node prepends its index to the freelist chain. -/
theorem FreeChain.free_extend {a : ArenaSt} {l : List Nat} {i : Nat} {nd : ANode}
    (hchain : FreeChain a a.freeHead l)
    (hnode : a.node? (Int.ofNat i) = some nd) (htomb : nd.vType = .tomb) :
    FreeChain (arenaFree a (Int.ofNat i)) (arenaFree a (Int.ofNat i)).freeHead
      (i :: l) := by
  have hnotmem : i ∉ l := by
    intro hmem
    obtain ⟨nd', hnd', hfree'⟩ := hchain.mem_free i hmem
    rw [hnode] at hnd'
    cases hnd'
    rw [htomb] at hfree'
    cases hfree'
  rw [arenaFree_freeHead hnode]
  refine FreeChain.cons i { resetNode with next := a.freeHead } l
    (arenaFree_node?_self hnode) rfl ?_
  exact hchain.frame (fun j hj =>
    arenaFree_node?_ne (by
      intro hij
      apply hnotmem
      rw [Int.ofNat.inj hij]
      exact hj))

theorem scavStep_none {acc : ArenaSt × List Nat × List Nat} {i : Nat}
    (h : acc.1.node? (Int.ofNat i) = none) :
    scavStep acc i =
      (acc.1, acc.2.1, if scavYieldsAt i then acc.2.2 ++ [i] else acc.2.2) := by
  unfold scavStep
  rw [h]

theorem scavStep_tomb {acc : ArenaSt × List Nat × List Nat} {i : Nat}
    {nd : ANode} (h : acc.1.node? (Int.ofNat i) = some nd)
    (ht : nd.vType = .tomb) :
    scavStep acc i =
      (arenaFree acc.1 (Int.ofNat i), acc.2.1 ++ [i],
        if scavYieldsAt i then acc.2.2 ++ [i] else acc.2.2) := by
  unfold scavStep
  rw [h]
  simp [ht]

theorem scavStep_other {acc : ArenaSt × List Nat × List Nat} {i : Nat}
    {nd : ANode} (h : acc.1.node? (Int.ofNat i) = some nd)
    (ht : nd.vType ≠ .tomb) :
    scavStep acc i =
      (acc.1, acc.2.1, if scavYieldsAt i then acc.2.2 ++ [i] else acc.2.2) := by
  unfold scavStep
  rw [h]
  simp [ht]

theorem scavStep_yields (acc : ArenaSt × List Nat × List Nat) (i : Nat) :
    (scavStep acc i).2.2 =
      if scavYieldsAt i then acc.2.2 ++ [i] else acc.2.2 := rfl

theorem scavenge_foldl_yields (l : List Nat) :
    ∀ acc : ArenaSt × List Nat × List Nat,
      (l.foldl scavStep acc).2.2 = acc.2.2 ++ l.filter scavYieldsAt := by
  induction l with
  | nil => intro acc; simp
  | cons i rest ih =>
    intro acc
    rw [List.foldl_cons, ih, List.filter_cons]
    rcases hy : scavYieldsAt i with _ | _
    · simp [scavStep_yields, hy]
    · simp [scavStep_yields, hy]

/-- The yield points of a sweep are exactly the scanned indices
divisible by 1000. -/
theorem scavenge_yields (a : ArenaSt) :
    (arenaScavenge a).2.2 = (List.range a.nodes.length).filter scavYieldsAt := by
  unfold arenaScavenge
  rw [scavenge_foldl_yields]
  rfl

/-- The invariant of the scavenge loop after scanning the first `k`
indices: lengths are preserved, unscanned nodes are untouched, the freed
trace is exactly the initially tombstoned prefix, the yield trace follows
`scavYieldsAt`, and the freelist is a chain holding every freed index. -/
theorem scavenge_inv (a : ArenaSt) (l₀ : List Nat)
    (hchain : FreeChain a a.freeHead l₀) :
    ∀ k, k ≤ a.nodes.length →
      ((List.range k).foldl scavStep (a, [], [])).1.nodes.length = a.nodes.length ∧
      (∀ j : Nat, k ≤ j →
        ((List.range k).foldl scavStep (a, [], [])).1.node? (Int.ofNat j) =
          a.node? (Int.ofNat j)) ∧
      ((List.range k).foldl scavStep (a, [], [])).2.1 =
        (List.range k).filter (tombAt a) ∧
      (∃ l, FreeChain ((List.range k).foldl scavStep (a, [], [])).1
            ((List.range k).foldl scavStep (a, [], [])).1.freeHead l ∧
        ∀ x ∈ (List.range k).filter (tombAt a), x ∈ l) := by
  intro k
  induction k with
  | zero =>
    intro _
    exact ⟨rfl, fun j _ => rfl, rfl, ⟨l₀, hchain, by simp⟩⟩
  | succ k ih =>
    intro hk1
    obtain ⟨hlen, hfr, hfreed, l, hchn, hmem⟩ := ih (by omega)
    set r := (List.range k).foldl scavStep (a, [], []) with hrdef
    have hstep : (List.range (k + 1)).foldl scavStep (a, [], []) = scavStep r k := by
      rw [List.range_succ, List.foldl_append, List.foldl_cons, List.foldl_nil]
    have hnodek : r.1.node? (Int.ofNat k) = a.node? (Int.ofNat k) := hfr k le_rfl
    rw [hstep]
    rcases h : a.node? (Int.ofNat k) with _ | nd
    · have htk : tombAt a k = false := by unfold tombAt; rw [h]
      rw [scavStep_none (hnodek.trans h)]
      refine ⟨hlen, fun j hj => hfr j (by omega), ?_, ⟨l, hchn, ?_⟩⟩
      · rw [List.range_succ, List.filter_append, ← hfreed]
        simp [htk]
      · intro x hx
        rw [List.range_succ, List.filter_append] at hx
        rcases List.mem_append.mp hx with hx | hx
        · exact hmem x hx
        · simp [htk] at hx
    · rcases hvt : nd.vType with _ | _ | _ | _ | _ | _ | _ | _ | _
      case tomb =>
        have htk : tombAt a k = true := by unfold tombAt; rw [h]; simp [hvt]
        have hrn : r.1.node? (Int.ofNat k) = some nd := hnodek.trans h
        rw [scavStep_tomb hrn hvt]
        refine ⟨?_, ?_, ?_, ?_⟩
        · rw [arenaFree_nodes_length]; exact hlen
        · intro j hj
          rw [arenaFree_node?_ne (by
            intro he
            have := Int.ofNat.inj he
            omega)]
          exact hfr j (by omega)
        · rw [List.range_succ, List.filter_append, ← hfreed]
          simp [htk]
        · refine ⟨k :: l, FreeChain.free_extend hchn hrn hvt, ?_⟩
          intro x hx
          rw [List.range_succ, List.filter_append] at hx
          rcases List.mem_append.mp hx with hx | hx
          · exact List.mem_cons_of_mem _ (hmem x hx)
          · have hxk : x = k := by simpa [htk] using hx
            rw [hxk]
            exact List.mem_cons_self _ _
      all_goals {
        have htk : tombAt a k = false := by unfold tombAt; rw [h]; simp [hvt]
        rw [scavStep_other (hnodek.trans h) (by rw [hvt]; intro hc; cases hc)]
        refine ⟨hlen, fun j hj => hfr j (by omega), ?_, ⟨l, hchn, ?_⟩⟩
        · rw [List.range_succ, List.filter_append, ← hfreed]
          simp [htk]
        · intro x hx
          rw [List.range_succ, List.filter_append] at hx
          rcases List.mem_append.mp hx with hx | hx
          · exact hmem x hx
          · simp [htk] at hx
      }

/-- C7 counterexample arena: 1025 allocated nodes, empty freelist. -/
def c7Arena : ArenaSt := ⟨List.replicate 1025 resetNode, -1, -1, 0, 0⟩

/--
C7 (counterexample): the claim states the sweep yields the CPU every 1024
scanned indices.  In a sweep over 1025 nodes, the loop does not yield at
scanned index 1024; it yields at index 1000 (and at 0): the code's yield
condition is `i % 1000 == 0`.
-/
theorem c7_scavenge_yield_counterexample :
    1024 < c7Arena.nodes.length ∧
      1024 ∉ (arenaScavenge c7Arena).2.2 ∧
      1000 ∈ (arenaScavenge c7Arena).2.2 := by
  have hy := scavenge_yields c7Arena
  have hlen : c7Arena.nodes.length = 1025 := by
    rw [show c7Arena.nodes = List.replicate 1025 resetNode from rfl,
      List.length_replicate]
  refine ⟨by rw [hlen]; omega, ?_, ?_⟩
  · rw [hy, hlen]
    intro hmem
    have := (List.mem_filter.mp hmem).2
    simp [scavYieldsAt] at this
  · rw [hy, hlen]
    refine List.mem_filter.mpr ⟨?_, by simp [scavYieldsAt]⟩
    refine List.mem_range.mpr (by omega)

/--
C7 (amended): a scavenger sweep linearly scans all allocated node
indices; it frees exactly those whose type is Tombstone (resetting each
and pushing its index onto the freelist); it yields the CPU at every
scanned index divisible by 1000 (not 1024); and after a full sweep every
node that was tombstoned before the sweep began has its index on the
freelist (given that the freelist was a well-formed chain before the
sweep).
-/
theorem c7_scavenge_sweep (a : ArenaSt) (l₀ : List Nat)
    (hchain : FreeChain a a.freeHead l₀) :
    (arenaScavenge a).2.1 = (List.range a.nodes.length).filter (tombAt a) ∧
      (arenaScavenge a).2.2 = (List.range a.nodes.length).filter scavYieldsAt ∧
      ∃ l, FreeChain (arenaScavenge a).1 (arenaScavenge a).1.freeHead l ∧
        ∀ i ∈ (List.range a.nodes.length).filter (tombAt a), i ∈ l := by
  obtain ⟨_, _, hfreed, l, hchn, hmem⟩ :=
    scavenge_inv a l₀ hchain a.nodes.length le_rfl
  exact ⟨hfreed, scavenge_yields a, l, hchn, hmem⟩

/-- C7 witness arena: node 0 a live object, node 1 a tombstone, node 2
free and on the freelist. -/
def c7WitnessArena : ArenaSt :=
  ⟨[⟨[], [], -1, -1, .obj⟩, ⟨[107], [], 0, -1, .tomb⟩, resetNode], 2, 0, 0, 0⟩

/-- C7 witness: the amended sweep theorem at a concrete arena; the sweep
frees exactly the tombstoned index 1 and it lands on the freelist. -/
theorem c7_scavenge_sweep_witness :
    (arenaScavenge c7WitnessArena).2.1 = [1] ∧
      ∃ l, FreeChain (arenaScavenge c7WitnessArena).1
          (arenaScavenge c7WitnessArena).1.freeHead l ∧
        ∀ i ∈ [1], i ∈ l := by
  have hchain : FreeChain c7WitnessArena c7WitnessArena.freeHead [2] := by
    refine FreeChain.cons 2 resetNode [] rfl rfl ?_
    exact FreeChain.nil
  obtain ⟨hfreed, _, l, hchn, hmem⟩ := c7_scavenge_sweep c7WitnessArena [2] hchain
  have hfilter :
      (List.range c7WitnessArena.nodes.length).filter (tombAt c7WitnessArena) = [1] := by
    decide
  refine ⟨by rw [hfreed, hfilter], l, hchn, ?_⟩
  intro i hi
  apply hmem
  rw [hfilter]
  exact hi

/-! ## Arena-engine transaction (pending-update layer) -/

/-- `arenaUpdate` (arena patch operations file). -/
structure ArenaUpd where
  path : GoPath
  value : GoValue
  op : PatchOp
  remove : Bool

/-- The arena `transaction`, restricted to the fields the data path
consumes.  The Go `updates` slice starts `nil`; in the embedding a
resting transaction's slice is non-nil exactly when it is nonempty. -/
structure ArenaTxn where
  rootIdx : Int
  updates : List ArenaUpd
  write : Bool
  stale : Bool

/-- The backwards overlap scan of the arena `transaction.Write`:
iterate from the last update down; on an exact path match fail `NotFound`
for a pending Remove (unless adding), else delete it and stop; delete
masked updates and continue; on a containing update fail `NotFound` if it
is a Remove, else stop (the arena engine does not fold). -/
def arenaWriteScan (updates : List ArenaUpd) (op : PatchOp) (path : GoPath) :
    Nat → Except TErr (List ArenaUpd)
  | 0 => .ok updates
  | i + 1 =>
    match updates.get? i with
    | none => arenaWriteScan updates op path i
    | some u =>
      if pathEqual u.path path then
        if u.remove ∧ op ≠ .add then .error .notFound
        else .ok (updates.eraseIdx i)
      else if pathHasPrefix u.path path then
        arenaWriteScan (updates.eraseIdx i) op path i
      else if pathHasPrefix path u.path then
        if u.remove then .error .notFound else .ok updates
      else arenaWriteScan updates op path i

/-- `transaction.updateRoot` (arena engine): clear all updates, then add
the single root update. -/
def arenaUpdateRoot (txn : ArenaTxn) (op : PatchOp) (value : GoValue) :
    ArenaTxn × Option TErr :=
  if op = .remove then (txn, some .rootCannotBeRemoved)
  else
    match value with
    | .obj _ => ({ txn with updates := [⟨[], value, op, false⟩] }, none)
    | _ => (txn, some .rootMustBeObject)

/-- `transaction.Write` (arena engine): the overlap scan, then append the
new update at the tail (`addUpdate`). -/
def arenaWrite (txn : ArenaTxn) (op : PatchOp) (path : GoPath)
    (value : GoValue) : ArenaTxn × Option TErr :=
  if txn.write = false then (txn, some .invalidTransaction)
  else if path = [] then arenaUpdateRoot txn op value
  else
    match arenaWriteScan txn.updates op path txn.updates.length with
    | .error e => (txn, some e)
    | .ok updates =>
      ({ txn with
         updates := updates ++ [⟨path, value, op, op == .remove⟩] }, none)

/-- `parseArrayIndex` (arena patch operations file): `-` means the array
length; single digits parse directly; longer keys parse as decimal;
anything else yields `-1`. -/
def parseArrayIndex (key : GoStr) (arrayLen : Nat) : Int :=
  if key = [45] then (arrayLen : Int)
  else if key.length = 1 then
    match key with
    | [c] => if 48 ≤ c ∧ c ≤ 57 then ((c - 48 : Nat) : Int) else -1
    | _ => -1
  else
    match parseDecimal key with
    | some n => (n : Int)
    | none => -1

/-- `transaction.navigateValue` (arena engine): descend a heterogeneous
value along a path. -/
def navigateValue : GoValue → GoPath → Except TErr GoValue
  | v, [] => .ok v
  | v, key :: rest =>
    match v with
    | .obj fields =>
      match alookup fields key with
      | some c => navigateValue c rest
      | none => .error .notFound
    | .arr elems =>
      let idx := parseArrayIndex key elems.length
      if 0 ≤ idx ∧ idx < (elems.length : Int) then
        navigateValue (elems.getD idx.toNat .null) rest
      else .error .notFound
    | _ => .error .notFound

/-- `insertAt` (arena patch operations file). -/
def insertAt (s : List GoValue) (idx : Int) (value : GoValue) : List GoValue :=
  let idx := if idx < 0 then 0 else idx
  let idx := if (s.length : Int) < idx then (s.length : Int) else idx
  s.insertIdx idx.toNat value

/-- `removeAt` (arena patch operations file). -/
def removeAt (s : List GoValue) (idx : Int) : List GoValue :=
  if idx < 0 ∨ (s.length : Int) ≤ idx then s
  else s.eraseIdx idx.toNat

mutual

/-- `applyPatch` (arena patch operations file). -/
def applyPatch (base : GoValue) (path : GoPath) (op : PatchOp)
    (value : GoValue) : GoValue :=
  match path with
  | [] => if op = .remove then .null else value
  | key :: rest =>
    match base with
    | .obj m => .obj (applyPatchToMap m key rest op value)
    | .arr s => .arr (applyPatchToSlice s key rest op value)
    | other => other
termination_by (path.length, 1)
decreasing_by all_goals simp only [Prod.lex_def]; simp

/-- `applyPatchToMap` (arena patch operations file). -/
def applyPatchToMap (m : List (GoStr × GoValue)) (key : GoStr)
    (rest : GoPath) (op : PatchOp) (value : GoValue) :
    List (GoStr × GoValue) :=
  if m.isEmpty ∧ op = .add then
    if rest.isEmpty then [(key, value)]
    else [(key, applyPatch (.obj []) rest op value)]
  else
    if rest.isEmpty then
      match op with
      | .add => ainsert m key value
      | .replace => ainsert m key value
      | .remove => aerase m key
    else
      match alookup m key with
      | some existing => ainsert m key (applyPatch existing rest op value)
      | none =>
        if op = .add then ainsert m key (applyPatch (.obj []) rest op value)
        else m
termination_by (rest.length + 1, 0)
decreasing_by all_goals simp only [Prod.lex_def]; omega

/-- `applyPatchToSlice` (arena patch operations file). -/
def applyPatchToSlice (s : List GoValue) (key : GoStr) (rest : GoPath)
    (op : PatchOp) (value : GoValue) : List GoValue :=
  let idx := parseArrayIndex key s.length
  if idx < 0 then s
  else
    if rest.isEmpty then
      match op with
      | .add => insertAt s idx value
      | .replace =>
        if 0 ≤ idx ∧ idx < (s.length : Int) then s.set idx.toNat value else s
      | .remove =>
        if 0 ≤ idx ∧ idx < (s.length : Int) then removeAt s idx else s
    else
      if 0 ≤ idx ∧ idx < (s.length : Int) then
        s.set idx.toNat (applyPatch (s.getD idx.toNat .null) rest op value)
      else s
termination_by (rest.length + 1, 0)
decreasing_by all_goals simp only [Prod.lex_def]; omega

end

/-- `arenaUpdate.Apply` (arena patch operations file). -/
def arenaUpdApply (u : ArenaUpd) (base : GoValue) : GoValue :=
  if u.path = [] then u.value else applyPatch base u.path u.op u.value

/-! ## Arena node-graph operations (arena.go, node.go)

Chain walks and graph recursions carry an explicit `fuel` parameter for
Lean termination; callers pass a fuel that exceeds any chain length
reachable in a well-formed arena, so the exhaustion branches are
unreachable there. -/

/-- The child-chain walk shared by `setValue` and `removeValue`
(arena.go): find the chain member with the given key; also report the
previous sibling (the chain tail when the key is absent). -/
def findChildAux (a : ArenaSt) : Nat → Int → GoStr → Int → Option Int × Int
  | 0, _, _, prev => (none, prev)
  | fuel + 1, childIdx, keyH, prev =>
    match a.node? childIdx with
    | none => (none, prev)
    | some child =>
      if child.key = keyH then (some childIdx, prev)
      else findChildAux a fuel child.next keyH childIdx

/-- `Arena.unlinkChild` (arena.go). -/
def unlinkChild (a : ArenaSt) (parentIdx childIdx prevIdx : Int) : ArenaSt :=
  match a.node? childIdx with
  | none => a
  | some child =>
    if prevIdx = -1 then modNode a parentIdx (fun p => { p with vRaw := child.next })
    else modNode a prevIdx (fun p => { p with next := child.next })

mutual

/-- `Arena.freeNodeRecursive` (arena.go): free the children chain
depth-first, then the node itself. -/
def freeNodeRecursive (a : ArenaSt) : Nat → Int → ArenaSt
  | 0, _ => a
  | fuel + 1, idx =>
    if idx = -1 then a
    else
      match a.node? idx with
      | none => a
      | some nd =>
        let a1 :=
          match nd.vType with
          | .obj => freeSiblingChain a fuel nd.vRaw
          | .arr => freeSiblingChain a fuel nd.vRaw
          | _ => a
        arenaFree a1 idx

/-- The sibling loop inside `freeNodeRecursive` / `freeNodeChildren`. -/
def freeSiblingChain (a : ArenaSt) : Nat → Int → ArenaSt
  | 0, _ => a
  | fuel + 1, childIdx =>
    match a.node? childIdx with
    | none => a
    | some child =>
      let nextIdx := child.next
      let a1 := freeNodeRecursive a fuel childIdx
      freeSiblingChain a1 fuel nextIdx

end

/-- `Arena.freeNodeChildren` (arena.go): free the children of a
composite node without freeing the node itself. -/
def freeNodeChildren (a : ArenaSt) (fuel : Nat) (idx : Int) : ArenaSt :=
  if idx = -1 then a
  else
    match a.node? idx with
    | none => a
    | some nd =>
      match nd.vType with
      | .obj => freeSiblingChain a fuel nd.vRaw
      | .arr => freeSiblingChain a fuel nd.vRaw
      | _ => a

mutual

/-- `Arena.fillNode` (arena.go): write a heterogeneous value into the
node at `idx`.  A `json.Number` hits the Go `default` case (`SetNull`). -/
def fillNodeF (a : ArenaSt) (idx : Int) (val : GoValue) : Nat → ArenaSt
  | 0 => a
  | fuel + 1 =>
    match val with
    | .null => modNode a idx ANode.setNull
    | .bool v => modNode a idx (ANode.setBool v)
    | .int v => modNode a idx (ANode.setInt v)
    | .str v => modNode a idx (ANode.setString v)
    | .num _ => modNode a idx ANode.setNull
    | .obj m =>
      let r := loadMapF a m fuel
      match r.1.node? r.2 with
      | some cn => modNode r.1 idx (ANode.setObject cn.vRaw)
      | none => r.1
    | .arr s =>
      let r := loadSliceF a s fuel
      match r.1.node? r.2 with
      | some cn => modNode r.1 idx (ANode.setArray cn.vRaw)
      | none => r.1

/-- `Arena.LoadMap` (arena.go): build a child chain for the entries, then
allocate the object node pointing at its head. -/
def loadMapF (a : ArenaSt) (m : List (GoStr × GoValue)) : Nat → ArenaSt × Int
  | 0 => (a, -1)
  | fuel + 1 =>
    if m.isEmpty then
      let r := arenaAlloc a
      (modNode r.1 r.2 (ANode.setObject (-1)), r.2)
    else
      let r := loadEntriesF a m (-1) (-1) fuel
      let head := r.2.1
      let r2 := arenaAlloc r.1
      (modNode r2.1 r2.2 (ANode.setObject head), r2.2)

/-- The entry loop of `LoadMap`: allocate a keyed node per entry, fill
it, and link it to the previous one. -/
def loadEntriesF (a : ArenaSt) (m : List (GoStr × GoValue)) (head last : Int) :
    Nat → ArenaSt × Int × Int
  | 0 => (a, head, last)
  | fuel + 1 =>
    match m with
    | [] => (a, head, last)
    | (k, v) :: rest =>
      let r := arenaAlloc a
      let nodeIdx := r.2
      let a1 := modNode r.1 nodeIdx (fun n => { n.setKey k with next := -1 })
      let a2 := fillNodeF a1 nodeIdx v fuel
      let a3 := if last ≠ -1 then modNode a2 last (fun n => { n with next := nodeIdx }) else a2
      loadEntriesF a3 rest (if head = -1 then nodeIdx else head) nodeIdx fuel

/-- `Arena.LoadSlice` (arena.go). -/
def loadSliceF (a : ArenaSt) (s : List GoValue) : Nat → ArenaSt × Int
  | 0 => (a, -1)
  | fuel + 1 =>
    if s.isEmpty then
      let r := arenaAlloc a
      (modNode r.1 r.2 (ANode.setArray (-1)), r.2)
    else
      let r := loadElemsF a s (-1) (-1) fuel
      let head := r.2.1
      let r2 := arenaAlloc r.1
      (modNode r2.1 r2.2 (ANode.setArray head), r2.2)

/-- The element loop of `LoadSlice`. -/
def loadElemsF (a : ArenaSt) (s : List GoValue) (head last : Int) :
    Nat → ArenaSt × Int × Int
  | 0 => (a, head, last)
  | fuel + 1 =>
    match s with
    | [] => (a, head, last)
    | v :: rest =>
      let r := arenaAlloc a
      let nodeIdx := r.2
      let a1 := modNode r.1 nodeIdx (fun n => { n with next := -1 })
      let a2 := fillNodeF a1 nodeIdx v fuel
      let a3 := if last ≠ -1 then modNode a2 last (fun n => { n with next := nodeIdx }) else a2
      loadElemsF a3 rest (if head = -1 then nodeIdx else head) nodeIdx fuel

end

/-- The fixed recursion budget for document loads: the fuelled loaders
consume one unit per nested call, so any document whose total size stays
below this bound loads exactly as in the source; every claim stays far
below it. -/
def loadFuel : Nat := 1000000

/-- `fillNode` at ample fuel. -/
def fillNode (a : ArenaSt) (idx : Int) (val : GoValue) : ArenaSt :=
  fillNodeF a idx val loadFuel

/-- `LoadMap` at ample fuel. -/
def loadMap (a : ArenaSt) (m : List (GoStr × GoValue)) : ArenaSt × Int :=
  loadMapF a m loadFuel

/-- `LoadSlice` at ample fuel. -/
def loadSlice (a : ArenaSt) (s : List GoValue) : ArenaSt × Int :=
  loadSliceF a s loadFuel

/-- `Arena.setValue` (arena.go): walk or create the object chain along
`path`, replacing the terminal node's value (freeing its old children);
fuelled recursion on the path depth. -/
def setValueF (a : ArenaSt) (parentIdx : Int) (path : GoPath) (depth : Nat)
    (value : GoValue) : Nat → ArenaSt × Except TErr Int
  | 0 => (a, .error .internal)
  | fuel + 1 =>
    let key := path.getD depth []
    match a.node? parentIdx with
    | none => (a, .error .internal)
    | some parent =>
      match findChildAux a (a.nodes.length + 1) parent.vRaw key (-1) with
      | (some childIdx, _) =>
        if depth = path.length - 1 then
          let a1 := freeNodeChildren a (a.nodes.length + 1) childIdx
          (fillNode a1 childIdx value, .ok parentIdx)
        else setValueF a childIdx path (depth + 1) value fuel
      | (none, prevIdx) =>
        let r := arenaAlloc a
        let newIdx := r.2
        let a1 := modNode r.1 newIdx (fun n => { n.setKey key with next := -1 })
        let link := fun (st : ArenaSt) =>
          if prevIdx = -1 then modNode st parentIdx (ANode.setObject newIdx)
          else modNode st prevIdx (fun n => { n with next := newIdx })
        if depth = path.length - 1 then
          (link (fillNode a1 newIdx value), .ok parentIdx)
        else
          let a2 := modNode a1 newIdx (ANode.setObject (-1))
          let a3 := (setValueF a2 newIdx path (depth + 1) value fuel).1
          (link a3, .ok parentIdx)

/-- `setValue` at ample fuel. -/
def setValueGo (a : ArenaSt) (parentIdx : Int) (path : GoPath) (depth : Nat)
    (value : GoValue) : ArenaSt × Except TErr Int :=
  setValueF a parentIdx path depth value (path.length + 1)

/-- `Arena.removeValue` (arena.go): unlink the target from its parent's
chain and free its subtree, eagerly; fuelled recursion on the path
depth. -/
def removeValueF (a : ArenaSt) (parentIdx : Int) (path : GoPath)
    (depth : Nat) : Nat → ArenaSt × Option TErr
  | 0 => (a, some .notFound)
  | fuel + 1 =>
    let key := path.getD depth []
    match a.node? parentIdx with
    | none => (a, some .notFound)
    | some parent =>
      match findChildAux a (a.nodes.length + 1) parent.vRaw key (-1) with
      | (some childIdx, prevIdx) =>
        if depth = path.length - 1 then
          let a1 := unlinkChild a parentIdx childIdx prevIdx
          (freeNodeRecursive a1 (a1.nodes.length + 1) childIdx, none)
        else removeValueF a childIdx path (depth + 1) fuel
      | (none, _) => (a, some .notFound)

/-- `removeValue` at ample fuel. -/
def removeValueGo (a : ArenaSt) (parentIdx : Int) (path : GoPath)
    (depth : Nat) : ArenaSt × Option TErr :=
  removeValueF a parentIdx path depth (path.length + 1)

mutual

/-- `Node.PathLookup` with its object/array chain walks (node.go),
fuelled; returns the index of the found node. -/
def pathLookupGo (a : ArenaSt) : Nat → Int → GoPath → Option Int
  | _, idx, [] => some idx
  | 0, _, _ => none
  | fuel + 1, idx, key :: rest =>
    match a.node? idx with
    | none => none
    | some n =>
      match n.vType with
      | .obj => objLookupAux a fuel n.vRaw key rest
      | .arr =>
        match parseDecimal key with
        | some pos => arrLookupAux a fuel n.vRaw pos rest
        | none => none
      | _ => none

/-- The object chain walk of `PathLookup`: skip tombstones, match keys. -/
def objLookupAux (a : ArenaSt) : Nat → Int → GoStr → GoPath → Option Int
  | 0, _, _, _ => none
  | fuel + 1, childIdx, key, rest =>
    match a.node? childIdx with
    | none => none
    | some child =>
      if child.vType ≠ .tomb ∧ child.key = key then
        match rest with
        | [] => some childIdx
        | _ :: _ => pathLookupGo a fuel childIdx rest
      else objLookupAux a fuel child.next key rest

/-- The array chain walk of `PathLookup`: count non-tombstone elements. -/
def arrLookupAux (a : ArenaSt) : Nat → Int → Nat → GoPath → Option Int
  | 0, _, _, _ => none
  | fuel + 1, childIdx, pos, rest =>
    match a.node? childIdx with
    | none => none
    | some child =>
      if child.vType ≠ .tomb then
        if pos = 0 then
          match rest with
          | [] => some childIdx
          | _ :: _ => pathLookupGo a fuel childIdx rest
        else arrLookupAux a fuel child.next (pos - 1) rest
      else arrLookupAux a fuel child.next pos rest

end

mutual

/-- `Node.ToInterface` (node.go), fuelled: materialise the node graph as
a heterogeneous value, skipping tombstones in chains. -/
def toInterface (a : ArenaSt) : Nat → Int → GoValue
  | 0, _ => .null
  | fuel + 1, idx =>
    match a.node? idx with
    | none => .null
    | some n =>
      match n.vType with
      | .int => .int n.vRaw
      | .bool => .bool (n.vRaw == 1)
      | .str => .str n.vStr
      | .obj => .obj (chainToFields a fuel n.vRaw)
      | .arr => .arr (chainToElems a fuel n.vRaw)
      | _ => .null

/-- `objectToMap`'s chain walk (node.go). -/
def chainToFields (a : ArenaSt) : Nat → Int → List (GoStr × GoValue)
  | 0, _ => []
  | fuel + 1, idx =>
    match a.node? idx with
    | none => []
    | some child =>
      if child.vType ≠ .tomb then
        (child.key, toInterface a fuel idx) :: chainToFields a fuel child.next
      else chainToFields a fuel child.next

/-- `arrayToSlice`'s chain walk (node.go). -/
def chainToElems (a : ArenaSt) : Nat → Int → List GoValue
  | 0, _ => []
  | fuel + 1, idx =>
    match a.node? idx with
    | none => []
    | some child =>
      if child.vType ≠ .tomb then
        toInterface a fuel idx :: chainToElems a fuel child.next
      else chainToElems a fuel child.next

end

/-- The fuel used for read walks: more than any acyclic chain length. -/
def readFuel (a : ArenaSt) : Nat := (a.nodes.length + 1) * (a.nodes.length + 1)

/-- The base read of the arena engine (`transaction.Read` /
`readWithUpdates` base part): materialise the document at `path` from
the committed node graph. -/
def arenaBaseRead (a : ArenaSt) (rootIdx : Int) (path : GoPath) :
    Except TErr GoValue :=
  match a.node? rootIdx with
  | none => .error .notFound
  | some _ =>
    if path = [] then .ok (toInterface a (readFuel a) rootIdx)
    else
      match pathLookupGo a (readFuel a) rootIdx path with
      | some nIdx => .ok (toInterface a (readFuel a) nIdx)
      | none => .error .notFound

/-- The update scan of `transaction.readWithUpdates` (arena engine):
an early result when a pending update's path prefixes the query path
(`NotFound` for a Remove, else a descent into the update's value), else
the collected updates extending the query path. -/
def arenaCollectRead : List ArenaUpd → GoPath → Option (Except TErr GoValue) × List ArenaUpd
  | [], _ => (none, [])
  | u :: rest, path =>
    if pathHasPrefix path u.path then
      (some (if u.remove then .error .notFound
             else
               if path.drop u.path.length = [] then .ok u.value
               else navigateValue u.value (path.drop u.path.length)), [])
    else
      let r := arenaCollectRead rest path
      if pathHasPrefix u.path path then (r.1, u :: r.2) else r

/-- `transaction.readWithUpdates` (arena engine). -/
def arenaReadWithUpdates (a : ArenaSt) (txn : ArenaTxn) (path : GoPath) :
    Except TErr GoValue :=
  match arenaCollectRead txn.updates path with
  | (some r, _) => r
  | (none, relevant) =>
    match arenaBaseRead a txn.rootIdx path, relevant with
    | .error e, [] => .error e
    | .ok v, [] => .ok v
    | .error _, rel => .ok (rel.foldl (fun b u => arenaUpdApply u b) (.obj []))
    | .ok v, rel => .ok (rel.foldl (fun b u => arenaUpdApply u b) v)

/-- `transaction.Read` (arena engine). -/
def arenaRead (a : ArenaSt) (txn : ArenaTxn) (path : GoPath) :
    Except TErr GoValue :=
  if txn.write ∧ ¬ txn.updates.isEmpty then arenaReadWithUpdates a txn path
  else arenaBaseRead a txn.rootIdx path

/-- `transaction.applyUpdate` (arena engine): a root update reloads the
root object; a Remove runs `removeValue`; anything else runs `setValue`
in place. -/
def arenaApplyUpdate (a : ArenaSt) (u : ArenaUpd) : ArenaSt × Option TErr :=
  if u.path = [] then
    match u.value with
    | .obj m =>
      let r := loadMap a m
      ({ r.1 with rootIdx := r.2 }, none)
    | _ => (a, some .rootMustBeObject)
  else if u.remove then removeValueGo a a.rootIdx u.path 0
  else
    let r := setValueGo a a.rootIdx u.path 0 u.value
    match r.2 with
    | .error e => (r.1, some e)
    | .ok _ => (r.1, none)

/-- `transaction.Commit` (arena engine), data part: iterate the updates
in slice (chronological) order; an update whose apply fails is skipped
and omitted from the event; event entries are appended in the same order
when triggers are registered. -/
def arenaTxnCommit (a : ArenaSt) (txn : ArenaTxn) : ArenaSt × List DataEvent :=
  txn.updates.foldl
    (fun (acc : ArenaSt × List DataEvent) u =>
      let r := arenaApplyUpdate acc.1 u
      match r.2 with
      | some _ => (r.1, acc.2)
      | none =>
        (r.1,
         if 0 < r.1.triggersCount then acc.2 ++ [⟨u.path, u.value, u.remove⟩]
         else acc.2))
    (a, [])

/-- `Arena.Commit` (arena.go): validate the transaction (`underlying`),
commit a write transaction under the reader-exclusion lock, mark it
stale, and run a sweep every 10 commits; always return success past
validation. -/
def arenaStoreCommit (a : ArenaSt) (txn : ArenaTxn) :
    (ArenaSt × ArenaTxn × List DataEvent) × Option TErr :=
  if txn.stale then ((a, txn, []), some .invalidTransaction)
  else if txn.write then
    let r := arenaTxnCommit a txn
    let txn1 : ArenaTxn := { txn with stale := true }
    let a1 : ArenaSt := { r.1 with commitCount := r.1.commitCount + 1 }
    let a2 : ArenaSt := if a1.commitCount % 10 = 0 then (arenaScavenge a1).1 else a1
    ((a2, txn1, r.2), none)
  else ((a, txn, []), none)

/-! ## Claim theorems: root writes, commit failure policy, concrete
counterexamples -/

/--
C9: in both engines, a successful write at the empty path (root
replacement with an object value) discards every previously recorded
pending data update of the transaction: afterwards the transaction holds
exactly one pending data update, whose path is the root (and which is not
a Remove); updates previously pending at any other path are gone.
-/
theorem c9_root_write_resets_updates (db : TreeStore) (txn : TreeTxn)
    (atxn : ArenaTxn) (op : PatchOp) (m : List (GoStr × GoValue))
    (hop : op ≠ .remove) (hw : txn.write = true) (haw : atxn.write = true) :
    ((treeWrite db txn op [] (.obj m)).2 = none ∧
      ∃ u, (treeWrite db txn op [] (.obj m)).1.updates = [u] ∧
        u.path = [] ∧ u.remove = false) ∧
    ((arenaWrite atxn op [] (.obj m)).2 = none ∧
      ∃ u, (arenaWrite atxn op [] (.obj m)).1.updates = [u] ∧
        u.path = [] ∧ u.remove = false) := by
  constructor
  · have : treeWrite db txn op [] (.obj m) = treeUpdateRoot txn op (.obj m) := by
      unfold treeWrite
      rw [hw]
      simp
    rw [this]
    unfold treeUpdateRoot
    rw [if_neg hop]
    exact ⟨rfl, ⟨[], .obj m, false⟩, rfl, rfl, rfl⟩
  · have : arenaWrite atxn op [] (.obj m) = arenaUpdateRoot atxn op (.obj m) := by
      unfold arenaWrite
      rw [haw]
      simp
    rw [this]
    unfold arenaUpdateRoot
    rw [if_neg hop]
    exact ⟨rfl, ⟨[], .obj m, op, false⟩, rfl, rfl, rfl⟩

/-- C9 witness: a root write over a transaction holding two pending
updates leaves exactly the root update. -/
theorem c9_root_write_resets_updates_witness :
    ((treeWrite ⟨.obj [], 0⟩
        ⟨[⟨[[120]], .int 1, false⟩, ⟨[[121]], .int 2, false⟩], none, true⟩
        .add [] (.obj [])).2 = none ∧
      ∃ u, (treeWrite ⟨.obj [], 0⟩
        ⟨[⟨[[120]], .int 1, false⟩, ⟨[[121]], .int 2, false⟩], none, true⟩
        .add [] (.obj [])).1.updates = [u] ∧ u.path = [] ∧ u.remove = false) ∧
    ((arenaWrite ⟨0, [⟨[[120]], .int 1, .add, false⟩], true, false⟩
        .add [] (.obj [])).2 = none ∧
      ∃ u, (arenaWrite ⟨0, [⟨[[120]], .int 1, .add, false⟩], true, false⟩
        .add [] (.obj [])).1.updates = [u] ∧ u.path = [] ∧ u.remove = false) :=
  c9_root_write_resets_updates ⟨.obj [], 0⟩
    ⟨[⟨[[120]], .int 1, false⟩, ⟨[[121]], .int 2, false⟩], none, true⟩
    ⟨0, [⟨[[120]], .int 1, .add, false⟩], true, false⟩
    .add [] (by intro h; cases h) rfl rfl

/-- A fresh arena write transaction rooted at node 0. -/
def freshATxn : ArenaTxn := ⟨0, [], true, false⟩

/--
C1 (counterexample): the claim states that in either engine, a write
below an existing non-Remove pending update folds into it, leaving the
pending-update count unchanged.  In the arena engine, after
`Write(Add, /a, {"b": 1})` the count is 1, and `Write(Add, /a/c, 2)` —
whose path has the pending `/a` as a proper prefix — succeeds but raises
the count to 2: a separate update for `/a/c` is appended instead of being
folded.
-/
theorem c1_arena_no_fold_counterexample :
    (arenaWrite freshATxn .add [[97]] (.obj [([98], .int 1)])).2 = none ∧
    (arenaWrite freshATxn .add [[97]] (.obj [([98], .int 1)])).1.updates.map
      (fun u => u.path) = [[[97]]] ∧
    (arenaWrite (arenaWrite freshATxn .add [[97]] (.obj [([98], .int 1)])).1
      .add [[97], [99]] (.int 2)).2 = none ∧
    (arenaWrite (arenaWrite freshATxn .add [[97]] (.obj [([98], .int 1)])).1
      .add [[97], [99]] (.int 2)).1.updates.length = 2 := by
  exact ⟨rfl, rfl, rfl, rfl⟩

/--
C2 (counterexample): the claim states that in either engine Commit
applies the pending updates newest-first and the trigger event lists them
newest-first.  In the arena engine, after `Write(Add, /a, 1)` then
`Write(Add, /b, 2)`, the commit event lists `/a` before `/b` — the first
write enqueued is the first one re-applied, not the last.
-/
theorem c2_arena_commit_order_counterexample :
    ((arenaTxnCommit ⟨[⟨[], [], -1, -1, .obj⟩], -1, 0, 1, 0⟩
        (arenaWrite (arenaWrite freshATxn .add [[97]] (.int 1)).1
          .add [[98]] (.int 2)).1).2.map (fun e => e.path)) = [[[97]], [[98]]] ∧
      ([[[97]], [[98]]] : List GoPath) ≠ [[[98]], [[97]]] := by
  refine ⟨rfl, by decide⟩

/--
C6 (counterexample): the claim states that in either engine, after
`Write(Remove, p)` succeeds, `Read(q)` yields `NotFound` for every `q`
with `HasPrefix(q, p)`.  In the arena engine, with a pending
`Add /a {"b": 1}` update, `Write(Remove, /a/b)` succeeds, yet
`Read(/a/b)` returns the value 1 from the earlier containing update: the
arena write does not fold the Remove into the pending parent update, and
the read scan hits the parent update first.
-/
theorem c6_arena_read_counterexample :
    (arenaWrite (arenaWrite freshATxn .add [[97]] (.obj [([98], .int 1)])).1
      .remove [[97], [98]] .null).2 = none ∧
    pathHasPrefix [[97], [98]] [[97], [98]] = true ∧
    arenaRead ⟨[⟨[], [], -1, -1, .obj⟩], -1, 0, 1, 0⟩
      (arenaWrite (arenaWrite freshATxn .add [[97]] (.obj [([98], .int 1)])).1
        .remove [[97], [98]] .null).1 [[97], [98]] = .ok (.int 1) ∧
    (Except.ok (GoValue.int 1) : Except TErr GoValue) ≠ .error .notFound := by
  refine ⟨rfl, rfl, rfl, by intro h; cases h⟩

/-- The C10 scenario arena: an empty committed root object, one
registered trigger. -/
def c10Arena : ArenaSt := ⟨[⟨[], [], -1, -1, .obj⟩], -1, 0, 1, 0⟩

/-- The C10 scenario transaction: a pending `Remove /m` (absent from the
committed data, so its apply fails) followed by `Add /a 1`. -/
def c10Txn : ArenaTxn :=
  (arenaWrite (arenaWrite freshATxn .remove [[109]] .null).1
    .add [[97]] (.int 1)).1

/--
C10: the arena engine's Commit never reports failure to the caller: for
every non-stale transaction the store-level Commit returns success; and
in the concrete scenario where applying the pending `Remove /m` fails
(no such path in the committed data), that update is silently skipped
and omitted from the trigger event while the remaining `Add /a 1` is
still applied.
-/
theorem c10_arena_commit_never_fails (a : ArenaSt) (txn : ArenaTxn)
    (hstale : txn.stale = false) :
    (arenaStoreCommit a txn).2 = none ∧
    ((arenaStoreCommit c10Arena c10Txn).2 = none ∧
      (arenaStoreCommit c10Arena c10Txn).1.2.2.map (fun e => e.path) = [[[97]]] ∧
      arenaBaseRead (arenaStoreCommit c10Arena c10Txn).1.1
        (arenaStoreCommit c10Arena c10Txn).1.1.rootIdx [[97]] = .ok (.int 1)) := by
  refine ⟨?_, rfl, rfl, rfl⟩
  unfold arenaStoreCommit
  rw [hstale]
  simp only [Bool.false_eq_true, if_false]
  split <;> rfl

/-- C10 witness: the theorem applied to the concrete scenario store. -/
theorem c10_arena_commit_never_fails_witness :
    (arenaStoreCommit c10Arena c10Txn).2 = none :=
  (c10_arena_commit_never_fails c10Arena c10Txn rfl).1

/-! ## Overlap and compaction lemmas -/

/-- Two update paths overlap when either is a prefix of the other. -/
def updOverlap (p q : GoPath) : Prop := p <+: q ∨ q <+: p

/-- The compaction invariant of both engines: no two pending updates
have overlapping paths. -/
def PathsNonOverlapping (ps : List GoPath) : Prop :=
  ps.Pairwise (fun p q => ¬ updOverlap p q)

theorem pathHasPrefix_false_iff {p other : GoPath} :
    pathHasPrefix p other = false ↔ ¬ other <+: p := by
  rw [← Bool.not_eq_true, not_iff_not]
  exact pathHasPrefix_iff

theorem pathEqual_false_iff {p q : GoPath} :
    pathEqual p q = false ↔ p ≠ q := by
  rw [← Bool.not_eq_true, not_iff_not]
  exact pathEqual_iff

theorem nonOverlapping_get {ps : List GoPath} (h : PathsNonOverlapping ps)
    {i j : Nat} (hi : i < ps.length) (hj : j < ps.length) (hij : i ≠ j) :
    ¬ updOverlap (ps.get ⟨i, hi⟩) (ps.get ⟨j, hj⟩) := by
  rw [PathsNonOverlapping, List.pairwise_iff_get] at h
  rcases Nat.lt_or_ge i j with hlt | hge
  · exact h ⟨i, hi⟩ ⟨j, hj⟩ hlt
  · have hlt : j < i := by omega
    intro hov
    exact h ⟨j, hj⟩ ⟨i, hi⟩ hlt (Or.symm hov)

/-- Under the invariant, a pending update whose path is a proper prefix
of `P` is the only update whose path relates to `P` at all. -/
theorem nonOverlapping_unique_related {us : List UpdateRaw} {P : GoPath}
    (hno : PathsNonOverlapping (us.map (fun u => u.path)))
    {k : Nat} (hk : k < us.length) (hup : (us.get ⟨k, hk⟩).path <+: P)
    {j : Nat} (hj : j < us.length) (hjk : j ≠ k) :
    ¬ updOverlap (us.get ⟨j, hj⟩).path P := by
  intro hov
  have hmap : ∀ {i : Nat} (hi : i < us.length),
      (us.map (fun u => u.path)).get ⟨i, by simpa using hi⟩ = (us.get ⟨i, hi⟩).path := by
    intro i hi
    simp
  have hno2 := nonOverlapping_get hno (i := j) (j := k)
    (by simpa using hj) (by simpa using hk) hjk
  rw [hmap hj, hmap hk] at hno2
  apply hno2
  rcases hov with hov | hov
  · -- us[j].path <+: P, us[k].path <+: P: the two are comparable
    rcases List.prefix_or_prefix_of_prefix hov hup with h | h
    · exact Or.inl h
    · exact Or.inr h
  · -- P <+: us[j].path, so us[k].path <+: us[j].path
    exact Or.inr (hup.trans hov)

/-- The prefix loop finds nothing when no pending path relates to `P`. -/
theorem scanPrefix_of_unrelated {us : List UpdateRaw} {P : GoPath}
    (h : ∀ u ∈ us, ¬ updOverlap u.path P) :
    ∀ j, scanPrefix us P j = .ok [] := by
  induction us with
  | nil => intro j; rfl
  | cons w rest ih =>
    intro j
    have hw := h w (by simp)
    rw [scanPrefix]
    rw [show pathHasPrefix w.path P = false from
      pathHasPrefix_false_iff.mpr (fun hp => hw (Or.inr hp))]
    rw [show pathHasPrefix P w.path = false from
      pathHasPrefix_false_iff.mpr (fun hp => hw (Or.inl hp))]
    simp only [Bool.false_eq_true, if_false]
    exact ih (fun u hu => h u (by simp [hu])) (j + 1)

/-- Under the invariant, the prefix loop stops at the unique containing
update with a fold hit. -/
theorem scanPrefix_fold_hit {us : List UpdateRaw} {P : GoPath}
    (hno : PathsNonOverlapping (us.map (fun u => u.path)))
    {k : Nat} (hk : k < us.length) (hup : (us.get ⟨k, hk⟩).path <+: P)
    (hne : (us.get ⟨k, hk⟩).path ≠ P) :
    ∀ j, scanPrefix us P j = .error (j + k, us.get ⟨k, hk⟩) := by
  induction us generalizing k with
  | nil => exact absurd hk (by simp)
  | cons w rest ih =>
    intro j
    cases k with
    | zero =>
      simp only [List.get] at hup hne
      rw [scanPrefix]
      rw [show pathHasPrefix w.path P = false from
        pathHasPrefix_false_iff.mpr
          (fun hp => hne (hup.sublist.antisymm hp.sublist))]
      rw [show pathHasPrefix P w.path = true from pathHasPrefix_iff.mpr hup]
      simp only [Bool.false_eq_true, if_false, if_true]
      rfl
    | succ k0 =>
      have hk0 : k0 < rest.length := by simpa using hk
      have hwne : ¬ updOverlap w.path P := by
        have := nonOverlapping_unique_related hno hk hup
          (j := 0) (by simp) (by omega)
        simpa using this
      rw [scanPrefix]
      rw [show pathHasPrefix w.path P = false from
        pathHasPrefix_false_iff.mpr (fun hp => hwne (Or.inr hp))]
      rw [show pathHasPrefix P w.path = false from
        pathHasPrefix_false_iff.mpr (fun hp => hwne (Or.inl hp))]
      simp only [Bool.false_eq_true, if_false]
      have hnorest : PathsNonOverlapping (rest.map (fun u => u.path)) := by
        have := hno
        rw [List.map_cons, PathsNonOverlapping, List.pairwise_cons] at this
        exact this.2
      have hresult := ih hnorest hk0
        (by simpa using hup) (by simpa using hne) (j + 1)
      rw [hresult]
      have : j + 1 + k0 = j + (k0 + 1) := by omega
      rw [this]
      rfl

theorem list_set_eq_self {α : Type} :
    ∀ {l : List α} {i : Nat} {x : α}, l.get? i = some x → l.set i x = l := by
  intro l
  induction l with
  | nil => intro i x h; cases h
  | cons a rest ih =>
    intro i x h
    cases i with
    | zero =>
      simp only [List.get?] at h
      cases h
      rfl
    | succ j =>
      simp only [List.get?] at h
      show a :: rest.set j x = a :: rest
      rw [ih h]

/-- The exact-match phase finds nothing in the linear regime when no
pending update has exactly the written path. -/
theorem treeWriteExact_linear_miss {txn : TreeTxn} {op : PatchOp}
    {P : GoPath} {v : GoValue} (hidx : txn.pathIndex = none)
    (hnone : ∀ u ∈ txn.updates, u.path ≠ P) :
    treeWriteExact txn op P v = .ok txn := by
  unfold treeWriteExact
  rw [hidx]
  have hfind : txn.updates.findIdx? (fun u => pathEqual u.path P) = none := by
    rw [List.findIdx?_eq_none_iff]
    intro u hu
    exact pathEqual_false_iff.mpr (hnone u hu)
  rw [hfind]

/-- The backwards overlap scan of the arena write, when the unique
related pending update's path is a proper prefix of the written path:
it fails `NotFound` for a Remove and otherwise leaves the updates
untouched. -/
theorem arenaWriteScan_containing {us : List ArenaUpd} (op : PatchOp)
    {P : GoPath}
    (hno : PathsNonOverlapping (us.map (fun u => u.path)))
    {k : Nat} (hk : k < us.length) (hup : (us.get ⟨k, hk⟩).path <+: P)
    (hne : (us.get ⟨k, hk⟩).path ≠ P) :
    arenaWriteScan us op P us.length =
      (if (us.get ⟨k, hk⟩).remove then .error .notFound else .ok us) := by
  have hrelated : ∀ {j : Nat} (hj : j < us.length), j ≠ k →
      ¬ updOverlap (us.get ⟨j, hj⟩).path P := by
    intro j hj hjk hov
    have hmap : ∀ {i : Nat} (hi : i < us.length),
        (us.map (fun u => u.path)).get ⟨i, by simpa using hi⟩ =
          (us.get ⟨i, hi⟩).path := by
      intro i hi
      simp
    have hno2 := nonOverlapping_get hno (i := j) (j := k)
      (by simpa using hj) (by simpa using hk) hjk
    rw [hmap hj, hmap hk] at hno2
    apply hno2
    rcases hov with hov | hov
    · rcases List.prefix_or_prefix_of_prefix hov hup with h | h
      · exact Or.inl h
      · exact Or.inr h
    · exact Or.inr (hup.trans hov)
  have hstep : ∀ d, k + 1 + d ≤ us.length →
      arenaWriteScan us op P (k + 1 + d) =
        (if (us.get ⟨k, hk⟩).remove then .error .notFound else .ok us) := by
    intro d
    induction d with
    | zero =>
      intro _
      show arenaWriteScan us op P (k + 1) = _
      rw [arenaWriteScan]
      rw [List.get?_eq_get hk]
      simp only
      rw [show pathEqual (us.get ⟨k, hk⟩).path P = false from
        pathEqual_false_iff.mpr hne]
      rw [show pathHasPrefix (us.get ⟨k, hk⟩).path P = false from
        pathHasPrefix_false_iff.mpr
          (fun hp => hne (hup.sublist.antisymm hp.sublist))]
      rw [show pathHasPrefix P (us.get ⟨k, hk⟩).path = true from
        pathHasPrefix_iff.mpr hup]
      simp only [Bool.false_eq_true, if_false, if_true]
    | succ d ih =>
      intro hle
      have hj : k + 1 + d < us.length := by omega
      have hjk : k + 1 + d ≠ k := by omega
      show arenaWriteScan us op P (k + 1 + d + 1) = _
      rw [arenaWriteScan]
      rw [List.get?_eq_get hj]
      simp only
      have hov := hrelated hj hjk
      rw [show pathEqual (us.get ⟨k + 1 + d, hj⟩).path P = false from
        pathEqual_false_iff.mpr (fun he => hov (Or.inl (he ▸ List.prefix_refl _)))]
      rw [show pathHasPrefix (us.get ⟨k + 1 + d, hj⟩).path P = false from
        pathHasPrefix_false_iff.mpr (fun hp => hov (Or.inr hp))]
      rw [show pathHasPrefix P (us.get ⟨k + 1 + d, hj⟩).path = false from
        pathHasPrefix_false_iff.mpr (fun hp => hov (Or.inl hp))]
      simp only [Bool.false_eq_true, if_false]
      exact ih (by omega)
  have hres := hstep (us.length - k - 1) (by omega)
  rw [show k + 1 + (us.length - k - 1) = us.length from by omega] at hres
  exact hres

/-- Path-level form of the uniqueness argument: under the invariant, a
path that is a prefix of `P` is the only listed path relating to `P`. -/
theorem nonOverlapping_unique_related_paths {ps : List GoPath} {P : GoPath}
    (hno : PathsNonOverlapping ps)
    {k : Nat} (hk : k < ps.length) (hup : ps.get ⟨k, hk⟩ <+: P)
    {j : Nat} (hj : j < ps.length) (hjk : j ≠ k) :
    ¬ updOverlap (ps.get ⟨j, hj⟩) P := by
  intro hov
  apply nonOverlapping_get hno hj hk hjk
  rcases hov with hov | hov
  · exact List.prefix_or_prefix_of_prefix hov hup
  · exact Or.inr (hup.trans hov)

/-- Under the invariant, the tree read scan stops at the unique pending
Remove whose path prefixes the query path, reporting `NotFound`. -/
theorem collectRead_remove_hit {us : List UpdateRaw} {q : GoPath}
    (hno : PathsNonOverlapping (us.map (fun u => u.path)))
    {k : Nat} (hk : k < us.length)
    (hup : (us.get ⟨k, hk⟩).path <+: q)
    (hrem : (us.get ⟨k, hk⟩).remove = true) :
    collectRead us q = (some (.error .notFound), []) := by
  induction us generalizing k with
  | nil => exact absurd hk (by simp)
  | cons w rest ih =>
    cases k with
    | zero =>
      simp only [List.get] at hup hrem
      rw [collectRead]
      rw [show pathHasPrefix q w.path = true from pathHasPrefix_iff.mpr hup]
      simp only [if_true, hrem]
    | succ k0 =>
      have hk0 : k0 < rest.length := by simpa using hk
      have hwne : ¬ updOverlap w.path q := by
        have h0 := nonOverlapping_unique_related hno hk hup
          (j := 0) (by simp) (by omega)
        simpa using h0
      rw [collectRead]
      rw [show pathHasPrefix q w.path = false from
        pathHasPrefix_false_iff.mpr (fun hp => hwne (Or.inl hp))]
      rw [show pathHasPrefix w.path q = false from
        pathHasPrefix_false_iff.mpr (fun hp => hwne (Or.inr hp))]
      simp only [Bool.false_eq_true, if_false]
      have hnorest : PathsNonOverlapping (rest.map (fun u => u.path)) := by
        have h2 := hno
        rw [List.map_cons, PathsNonOverlapping, List.pairwise_cons] at h2
        exact h2.2
      rw [ih hnorest hk0 (by simpa using hup) (by simpa using hrem)]

/-- Under the invariant, the arena read scan stops at the unique pending
Remove whose path prefixes the query path, reporting `NotFound`. -/
theorem arenaCollectRead_remove_hit {us : List ArenaUpd} {q : GoPath}
    (hno : PathsNonOverlapping (us.map (fun u => u.path)))
    {k : Nat} (hk : k < us.length)
    (hup : (us.get ⟨k, hk⟩).path <+: q)
    (hrem : (us.get ⟨k, hk⟩).remove = true) :
    arenaCollectRead us q = (some (.error .notFound), []) := by
  induction us generalizing k with
  | nil => exact absurd hk (by simp)
  | cons w rest ih =>
    cases k with
    | zero =>
      simp only [List.get] at hup hrem
      rw [arenaCollectRead]
      rw [show pathHasPrefix q w.path = true from pathHasPrefix_iff.mpr hup]
      simp only [if_true, hrem]
    | succ k0 =>
      have hk0 : k0 < rest.length := by simpa using hk
      have hwne : ¬ updOverlap w.path q := by
        have h0 := nonOverlapping_unique_related_paths hno
          (k := k0 + 1) (by simpa using hk) (by simpa using hup)
          (j := 0) (by simp) (by omega)
        simpa using h0
      rw [arenaCollectRead]
      rw [show pathHasPrefix q w.path = false from
        pathHasPrefix_false_iff.mpr (fun hp => hwne (Or.inl hp))]
      rw [show pathHasPrefix w.path q = false from
        pathHasPrefix_false_iff.mpr (fun hp => hwne (Or.inr hp))]
      simp only [Bool.false_eq_true, if_false]
      have hnorest : PathsNonOverlapping (rest.map (fun u => u.path)) := by
        have h2 := hno
        rw [List.map_cons, PathsNonOverlapping, List.pairwise_cons] at h2
        exact h2.2
      rw [ih hnorest hk0 (by simpa using hup) (by simpa using hrem)]

/--
C1 (amended): for a write at a non-empty path `P` in a transaction whose
pending updates are pairwise non-overlapping and one of whose updates
has a path that is a proper prefix of `P`:
in the tree engine (in the linear regime, before the adaptive index
kicks in), if that update is a Remove the write fails `NotFound`, and
otherwise the write descends into the existing update's value and folds
the new value into it in place — the pending paths are unchanged and no
separate update for `P` is added; in the arena engine a Remove also
fails `NotFound`, but a non-Remove containing update is not folded into:
the write appends a separate pending update for `P`, growing the count
by one.
-/
theorem c1_prefix_write_fold (db : TreeStore) (txn : TreeTxn)
    (atxn : ArenaTxn) (op aop : PatchOp) (P aP : GoPath) (v av : GoValue)
    (hw : txn.write = true) (hidx : txn.pathIndex = none)
    (hlen : txn.updates.length < pathIndexThreshold)
    (hno : PathsNonOverlapping (txn.updates.map (fun u => u.path)))
    (k : Nat) (hk : k < txn.updates.length)
    (hup : (txn.updates.get ⟨k, hk⟩).path <+: P)
    (hne : (txn.updates.get ⟨k, hk⟩).path ≠ P)
    (hP : P ≠ [])
    (haw : atxn.write = true)
    (hano : PathsNonOverlapping (atxn.updates.map (fun u => u.path)))
    (ak : Nat) (hak : ak < atxn.updates.length)
    (haup : (atxn.updates.get ⟨ak, hak⟩).path <+: aP)
    (hane : (atxn.updates.get ⟨ak, hak⟩).path ≠ aP)
    (haP : aP ≠ []) :
    (((txn.updates.get ⟨k, hk⟩).remove = true →
        treeWrite db txn op P v = (txn, some .notFound)) ∧
     ((txn.updates.get ⟨k, hk⟩).remove = false →
        (treeWrite db txn op P v).1.updates.map (fun u => u.path) =
          txn.updates.map (fun u => u.path) ∧
        ((treeWrite db txn op P v).2 = none →
          ∃ nu, newUpdateRaw (txn.updates.get ⟨k, hk⟩).value op
              (P.drop (txn.updates.get ⟨k, hk⟩).path.length) 0 v = .ok nu ∧
            (treeWrite db txn op P v).1.updates =
              txn.updates.set k { txn.updates.get ⟨k, hk⟩ with
                value := applyRaw nu (txn.updates.get ⟨k, hk⟩).value }))) ∧
    (((atxn.updates.get ⟨ak, hak⟩).remove = true →
        arenaWrite atxn aop aP av = (atxn, some .notFound)) ∧
     ((atxn.updates.get ⟨ak, hak⟩).remove = false →
        arenaWrite atxn aop aP av =
          ({ atxn with updates :=
              atxn.updates ++ [⟨aP, av, aop, aop == .remove⟩] }, none))) := by
  constructor
  · -- tree engine
    have hexact : ∀ u ∈ txn.updates, u.path ≠ P := by
      intro u hu hup2
      obtain ⟨j, hget⟩ := List.mem_iff_get.mp hu
      by_cases hjk : (j : Nat) = k
      · apply hne
        have heq : txn.updates.get ⟨k, hk⟩ = u := by
          rw [← hget]
          exact congrArg _ (Fin.ext hjk.symm)
        rw [heq, hup2]
      · refine nonOverlapping_unique_related hno hk hup (j := (j : Nat)) j.2 hjk ?_
        have heq : txn.updates.get ⟨(j : Nat), j.2⟩ = u := hget
        rw [heq, hup2]
        exact Or.inl (List.prefix_refl _)
    have hwrite : treeWrite db txn op P v = treeWritePrefix db txn op P v := by
      unfold treeWrite
      rw [hw]
      simp only [Bool.true_eq_false, if_false, if_neg hP]
      rw [if_neg (by
        intro hcond
        have := hcond.2
        unfold pathIndexThreshold at this
        omega)]
      rw [treeWriteExact_linear_miss hidx hexact]
    have hscan := scanPrefix_fold_hit hno hk hup hne 0
    rw [hwrite]
    unfold treeWritePrefix
    rw [hscan]
    simp only [Nat.zero_add]
    constructor
    · intro hrem
      rw [hrem]
      rfl
    · intro hrem
      rw [hrem]
      simp only [Bool.false_eq_true, if_false]
      rcases hnu : newUpdateRaw (txn.updates.get ⟨k, hk⟩).value op
          (P.drop (txn.updates.get ⟨k, hk⟩).path.length) 0 v with e | nu
      · exact ⟨rfl, by intro h; cases h⟩
      · constructor
        · simp only
          rw [List.map_set]
          apply list_set_eq_self
          rw [List.get?_map, List.get?_eq_get hk]
          rfl
        · intro _
          exact ⟨nu, rfl, rfl⟩
  · -- arena engine
    have hscan := arenaWriteScan_containing aop hano hak haup hane
    have hwrite : arenaWrite atxn aop aP av =
        (match arenaWriteScan atxn.updates aop aP atxn.updates.length with
         | .error e => (atxn, some e)
         | .ok updates =>
           ({ atxn with updates := updates ++ [⟨aP, av, aop, aop == .remove⟩] },
            none)) := by
      unfold arenaWrite
      rw [haw]
      simp only [Bool.true_eq_false, if_false, if_neg haP]
    constructor
    · intro hrem
      rw [hwrite, hscan, hrem]
      rfl
    · intro hrem
      rw [hwrite, hscan, hrem]
      rfl

/-- C1 witness: the amended theorem at a concrete pair of transactions —
a pending `Add /a {"b": 1}` in each engine, written below at `/a/c`. -/
theorem c1_prefix_write_fold_witness :
    ((([⟨[[97]], .obj [([98], .int 1)], false⟩] : List UpdateRaw).get
        ⟨0, by simp⟩).remove = false →
      (treeWrite ⟨.obj [], 0⟩ ⟨[⟨[[97]], .obj [([98], .int 1)], false⟩], none, true⟩
        .add [[97], [99]] (.int 2)).1.updates.map (fun u => u.path) =
        ([⟨[[97]], .obj [([98], .int 1)], false⟩] : List UpdateRaw).map
          (fun u => u.path)) ∧
    ((([⟨[[97]], .obj [([98], .int 1)], .add, false⟩] : List ArenaUpd).get
        ⟨0, by simp⟩).remove = false →
      arenaWrite ⟨0, [⟨[[97]], .obj [([98], .int 1)], .add, false⟩], true, false⟩
        .add [[97], [99]] (.int 2) =
        ({ rootIdx := 0,
           updates := [⟨[[97]], .obj [([98], .int 1)], .add, false⟩] ++
             [⟨[[97], [99]], .int 2, .add, PatchOp.add == PatchOp.remove⟩],
           write := true, stale := false }, none)) := by
  have h := c1_prefix_write_fold ⟨.obj [], 0⟩
    ⟨[⟨[[97]], .obj [([98], .int 1)], false⟩], none, true⟩
    ⟨0, [⟨[[97]], .obj [([98], .int 1)], .add, false⟩], true, false⟩
    .add .add [[97], [99]] [[97], [99]] (.int 2) (.int 2)
    rfl rfl (by simp [pathIndexThreshold])
    (by simp [PathsNonOverlapping])
    0 (by simp) (by decide) (by decide) (by simp)
    rfl (by simp [PathsNonOverlapping]) 0 (by simp)
    (by decide) (by decide) (by simp)
  exact ⟨fun hr => (h.1.2 hr).1, fun hr => h.2.2 hr⟩

/-- Every update materialised by `newUpdateRaw` carries a path that is a
prefix of the written path (the full path for an object parent, the
parent path for an array parent). -/
theorem newUpdateRawF_path_le : ∀ (fuel : Nat),
    (∀ data op path idx v u, newUpdateRawF fuel data op path idx v = .ok u →
      u.path <+: path) ∧
    (∀ data op path idx v u, newUpdateArrayF fuel data op path idx v = .ok u →
      u.path <+: path) ∧
    (∀ data op path idx v u, newUpdateObjectF fuel data op path idx v = .ok u →
      u.path <+: path) := by
  intro fuel
  induction fuel with
  | zero =>
    refine ⟨?_, ?_, ?_⟩ <;> intro data op path idx v u h <;>
      simp [newUpdateRawF, newUpdateArrayF, newUpdateObjectF] at h
  | succ n ih =>
    refine ⟨?_, ?_, ?_⟩ <;> intro data op path idx v u h
    · cases data with
      | null => simp [newUpdateRawF] at h
      | bool b => simp [newUpdateRawF] at h
      | int i => simp [newUpdateRawF] at h
      | num s => simp [newUpdateRawF] at h
      | str s => simp [newUpdateRawF] at h
      | obj fields => exact ih.2.2 fields op path idx v u (by simpa [newUpdateRawF] using h)
      | arr elems => exact ih.2.1 elems op path idx v u (by simpa [newUpdateRawF] using h)
    · rw [newUpdateArrayF] at h
      repeat' split at h
      all_goals first
        | (injection h with h2; rw [← h2]; exact List.take_prefix _ _)
        | exact ih.1 _ _ _ _ _ _ h
        | simp at h
    · rw [newUpdateObjectF.eq_def] at h
      simp only [] at h
      repeat' split at h
      all_goals first
        | exact ih.1 _ _ _ _ _ _ h
        | (cases h; exact List.prefix_refl _)
        | (injection h with h2; rw [← h2]; exact List.prefix_refl _)
        | simp at h

theorem newUpdateRaw_path_le {data : GoValue} {op : PatchOp} {P : GoPath}
    {v : GoValue} {u : UpdateRaw} (h : newUpdateRaw data op P 0 v = .ok u) :
    u.path <+: P :=
  (newUpdateRawF_path_le _).1 _ _ _ _ _ _ h

/-- The write tail when the prefix scan finds nothing to fold or mask. -/
theorem treeWritePrefix_fresh {db : TreeStore} {txn : TreeTxn} {op : PatchOp}
    {P : GoPath} {v : GoValue}
    (hscan : scanPrefix txn.updates P 0 = .ok []) :
    treeWritePrefix db txn op P v =
      match newUpdateRaw db.data op P 0 v with
      | .error e => (txn, some e)
      | .ok u =>
        ({ txn with
           updates := u :: txn.updates,
           pathIndex := txn.pathIndex.map (fun m =>
             ainsert (m.map (fun kv => (kv.1, kv.2 + 1))) (pathString P) 0) },
         none) := by
  unfold treeWritePrefix
  rw [hscan]
  rfl

/-- `transaction.Write` at a non-empty path, below the index threshold:
it runs the exact phase and then the prefix phase. -/
theorem treeWrite_route {db : TreeStore} {txn : TreeTxn} {op : PatchOp}
    {P : GoPath} {v : GoValue}
    (hw : txn.write = true) (hP : P ≠ [])
    (hnoinit : ¬ (txn.pathIndex = none ∧ pathIndexThreshold ≤ txn.updates.length)) :
    treeWrite db txn op P v =
      match treeWriteExact txn op P v with
      | .error r => r
      | .ok t => treeWritePrefix db t op P v := by
  unfold treeWrite
  rw [hw]
  simp only [Bool.true_eq_false, if_false, if_neg hP, if_neg hnoinit]

/-- The exact phase in the linear regime when the head update's path
matches the written path exactly. -/
theorem treeWriteExact_hit0 {txn : TreeTxn} {op : PatchOp} {P : GoPath}
    {v : GoValue} {u : UpdateRaw} {rest : List UpdateRaw}
    (hidx : txn.pathIndex = none) (hupd : txn.updates = u :: rest)
    (hp : u.path = P) :
    treeWriteExact txn op P v =
      if u.remove = true ∧ op ≠ .add then .error (txn, some .notFound)
      else if comparableEquals u.value v = true then .error (txn, none)
      else .ok { txn with updates := rest } := by
  have hfind : txn.updates.findIdx? (fun w => pathEqual w.path P) = some 0 := by
    rw [hupd, List.findIdx?_cons]
    rw [show pathEqual u.path P = true from pathEqual_iff.mpr hp]
    rfl
  have hget : txn.updates.get? 0 = some u := by rw [hupd]; rfl
  unfold treeWriteExact
  rw [hidx, hfind]
  simp only []
  rw [hget, hupd]
  rfl

/-- A tree write at a path unrelated to every pending update, in the
linear regime: it prepends the materialised update (or fails leaving the
transaction unchanged). -/
theorem treeWrite_fresh (db : TreeStore) (op : PatchOp) (v : GoValue)
    {txn : TreeTxn} {P : GoPath}
    (hw : txn.write = true) (hidx : txn.pathIndex = none)
    (hlen : txn.updates.length < pathIndexThreshold) (hP : P ≠ [])
    (hunrel : ∀ u ∈ txn.updates, ¬ updOverlap u.path P) :
    treeWrite db txn op P v =
      match newUpdateRaw db.data op P 0 v with
      | .error e => (txn, some e)
      | .ok u => (⟨u :: txn.updates, none, txn.write⟩, none) := by
  have hexact : ∀ u ∈ txn.updates, u.path ≠ P := by
    intro u hu heq
    exact hunrel u hu (Or.inl (heq ▸ List.prefix_refl _))
  rw [treeWrite_route hw hP (by
    intro hc
    have h2 := hc.2
    unfold pathIndexThreshold at h2 hlen
    omega)]
  rw [treeWriteExact_linear_miss hidx hexact]
  show treeWritePrefix db txn op P v = _
  rw [treeWritePrefix_fresh (scanPrefix_of_unrelated hunrel 0)]
  rcases hnu : newUpdateRaw db.data op P 0 v with e | u
  · rfl
  · rw [hidx]
    rfl

theorem eraseIdx_concat {α : Type} : ∀ (l : List α) (a : α),
    (l ++ [a]).eraseIdx l.length = l := by
  intro l a
  induction l with
  | nil => rfl
  | cons x xs ih =>
    show x :: (xs ++ [a]).eraseIdx xs.length = x :: xs
    rw [ih]

/-- A second identical tree write against the transaction produced by a
fresh first write preserves the pending-update count. -/
theorem treeWrite_again_length {db : TreeStore} {txn : TreeTxn} {op : PatchOp}
    {P : GoPath} {v : GoValue} {nu : UpdateRaw}
    (hw : txn.write = true) (hidx : txn.pathIndex = none)
    (hlen : txn.updates.length + 1 < pathIndexThreshold) (hP : P ≠ [])
    (hunrel : ∀ u ∈ txn.updates, ¬ updOverlap u.path P)
    (hnu : newUpdateRaw db.data op P 0 v = .ok nu) :
    (treeWrite db ⟨nu :: txn.updates, none, txn.write⟩ op P v).1.updates.length =
      (nu :: txn.updates).length := by
  have hpfx : nu.path <+: P := newUpdateRaw_path_le hnu
  have hexact : ∀ u ∈ txn.updates, u.path ≠ P := by
    intro u hu heq
    exact hunrel u hu (Or.inl (heq ▸ List.prefix_refl _))
  have hw2 : (⟨nu :: txn.updates, none, txn.write⟩ : TreeTxn).write = true := hw
  rw [treeWrite_route hw2 hP (by
    intro hc
    have h2 := hc.2
    simp only [List.length_cons] at h2
    unfold pathIndexThreshold at h2 hlen
    omega)]
  by_cases hnup : nu.path = P
  · -- exact hit on the freshly prepended update
    rw [treeWriteExact_hit0 rfl rfl hnup]
    by_cases hb : nu.remove = true ∧ op ≠ .add
    · rw [if_pos hb]
    · rw [if_neg hb]
      cases hc : comparableEquals nu.value v with
      | true => rfl
      | false =>
        show (treeWritePrefix db ⟨txn.updates, none, txn.write⟩ op P v).1.updates.length
          = (nu :: txn.updates).length
        have hscan2 : scanPrefix (⟨txn.updates, none, txn.write⟩ : TreeTxn).updates P 0
            = .ok [] := scanPrefix_of_unrelated hunrel 0
        rw [treeWritePrefix_fresh hscan2, hnu]
  · -- exact miss; the prefix scan folds into the prepended update
    have hfind : ∀ u ∈ (⟨nu :: txn.updates, none, txn.write⟩ : TreeTxn).updates,
        u.path ≠ P := by
      intro u hu
      rcases List.mem_cons.mp hu with hu | hu
      · exact hu ▸ hnup
      · exact hexact u hu
    rw [treeWriteExact_linear_miss rfl hfind]
    have hmask : pathHasPrefix nu.path P = false :=
      pathHasPrefix_false_iff.mpr
        (fun hp => hnup (hpfx.sublist.antisymm hp.sublist))
    have hfold : pathHasPrefix P nu.path = true := pathHasPrefix_iff.mpr hpfx
    have hscan1 : scanPrefix (nu :: txn.updates) P 0 = .error (0, nu) := by
      rw [scanPrefix, hmask, hfold]
      simp
    show (treeWritePrefix db ⟨nu :: txn.updates, none, txn.write⟩ op P v).1.updates.length
      = (nu :: txn.updates).length
    unfold treeWritePrefix
    rw [hscan1]
    cases hr : nu.remove with
    | true => simp [hr]
    | false =>
      rcases hnu2 : newUpdateRaw nu.value op (P.drop nu.path.length) 0 v with e | nu2
      · simp [hr, hnu2]
      · simp [hr, hnu2, List.length_set]

/--
C6 (amended): in a write transaction of either engine whose pending
updates are pairwise non-overlapping, if some pending update is a Remove
whose path is a prefix of the query path `q`, then `Read(q)` in that
transaction yields `NotFound`.  (The non-overlap proviso is needed: an
earlier containing non-Remove pending update shadows a later Remove in
both read scans.)
-/
theorem c6_remove_prefix_read_notfound (db : TreeStore) (txn : TreeTxn)
    (a : ArenaSt) (atxn : ArenaTxn) (q aq : GoPath)
    (hw : txn.write = true)
    (hno : PathsNonOverlapping (txn.updates.map (fun u => u.path)))
    (k : Nat) (hk : k < txn.updates.length)
    (hup : (txn.updates.get ⟨k, hk⟩).path <+: q)
    (hrem : (txn.updates.get ⟨k, hk⟩).remove = true)
    (haw : atxn.write = true)
    (hano : PathsNonOverlapping (atxn.updates.map (fun u => u.path)))
    (ak : Nat) (hak : ak < atxn.updates.length)
    (haup : (atxn.updates.get ⟨ak, hak⟩).path <+: aq)
    (harem : (atxn.updates.get ⟨ak, hak⟩).remove = true) :
    treeRead db txn q = .error .notFound ∧
    arenaRead a atxn aq = .error .notFound := by
  have hne : txn.updates.isEmpty = false := by
    cases h : txn.updates with
    | nil => rw [h] at hk; simp at hk
    | cons x xs => rfl
  have hane : atxn.updates.isEmpty = false := by
    cases h : atxn.updates with
    | nil => rw [h] at hak; simp at hak
    | cons x xs => rfl
  constructor
  · unfold treeRead
    rw [if_neg (by simp [hw, hne])]
    rw [collectRead_remove_hit hno hk hup hrem]
  · unfold arenaRead
    rw [if_pos (by simp [haw, hane])]
    unfold arenaReadWithUpdates
    rw [arenaCollectRead_remove_hit hano hak haup harem]

/-- C6 witness: the amended theorem at concrete transactions with a
pending `Remove /a`, read at `/a/b` in both engines. -/
theorem c6_remove_prefix_read_notfound_witness :
    treeRead ⟨.obj [], 0⟩ ⟨[⟨[[97]], .null, true⟩], none, true⟩
      [[97], [98]] = .error .notFound ∧
    arenaRead ⟨[], -1, -1, 0, 0⟩ ⟨-1, [⟨[[97]], .null, .remove, true⟩], true, false⟩
      [[97], [98]] = .error .notFound :=
  c6_remove_prefix_read_notfound ⟨.obj [], 0⟩ ⟨[⟨[[97]], .null, true⟩], none, true⟩
    ⟨[], -1, -1, 0, 0⟩ ⟨-1, [⟨[[97]], .null, .remove, true⟩], true, false⟩
    [[97], [98]] [[97], [98]] rfl (by simp [PathsNonOverlapping])
    0 (by simp) (by decide) rfl
    rfl (by simp [PathsNonOverlapping]) 0 (by simp) (by decide) rfl

/--
C8: writing the same value at the same non-empty path twice in
succession leaves the pending-update count unchanged after the second
write.  Tree engine: in the linear regime, for a first write at a path
unrelated to the pending updates, given the first write succeeds.  Arena
engine: general, given the first write succeeds (the backwards scan
deletes the exact match appended by the first write and re-appends, or
fails `NotFound` leaving the transaction untouched).
-/
theorem c8_double_write_idempotent (db : TreeStore) (txn : TreeTxn)
    (atxn : ArenaTxn) (op aop : PatchOp) (P aP : GoPath) (v av : GoValue)
    (hw : txn.write = true) (hidx : txn.pathIndex = none)
    (hlen : txn.updates.length + 1 < pathIndexThreshold)
    (hP : P ≠ [])
    (hunrel : ∀ u ∈ txn.updates, ¬ updOverlap u.path P)
    (hsucc : (treeWrite db txn op P v).2 = none)
    (haw : atxn.write = true) (haP : aP ≠ [])
    (hasucc : (arenaWrite atxn aop aP av).2 = none) :
    (treeWrite db (treeWrite db txn op P v).1 op P v).1.updates.length =
      (treeWrite db txn op P v).1.updates.length ∧
    (arenaWrite (arenaWrite atxn aop aP av).1 aop aP av).1.updates.length =
      (arenaWrite atxn aop aP av).1.updates.length := by
  constructor
  · have h1 := treeWrite_fresh db op v hw hidx (by omega) hP hunrel
    rcases hnu : newUpdateRaw db.data op P 0 v with e | nu
    · rw [hnu] at h1
      rw [h1] at hsucc
      simp at hsucc
    · rw [hnu] at h1
      rw [h1]
      exact treeWrite_again_length hw hidx hlen hP hunrel hnu
  · rcases hscan : arenaWriteScan atxn.updates aop aP atxn.updates.length
      with e | us
    · exfalso
      unfold arenaWrite at hasucc
      rw [haw] at hasucc
      simp only [Bool.true_eq_false, if_false, if_neg haP] at hasucc
      rw [hscan] at hasucc
      simp at hasucc
    · have h1 : arenaWrite atxn aop aP av =
          ({ atxn with updates := us ++ [⟨aP, av, aop, aop == .remove⟩] }, none) := by
        unfold arenaWrite
        rw [haw]
        simp only [Bool.true_eq_false, if_false, if_neg haP]
        rw [hscan]
      rw [h1]
      have hlen2 : (us ++ [(⟨aP, av, aop, aop == .remove⟩ : ArenaUpd)]).length
          = us.length + 1 := by simp
      unfold arenaWrite
      rw [show ({ atxn with updates := us ++ [⟨aP, av, aop, aop == .remove⟩] }
        : ArenaTxn).write = atxn.write from rfl, haw]
      simp only [Bool.true_eq_false, if_false, if_neg haP]
      have hget : (us ++ [(⟨aP, av, aop, aop == .remove⟩ : ArenaUpd)]).get? us.length
          = some ⟨aP, av, aop, aop == .remove⟩ := List.get?_concat_length _ _
      have hpe : pathEqual aP aP = true := pathEqual_iff.mpr rfl
      by_cases hrm : aop = .remove
      · have hstep : arenaWriteScan (us ++ [⟨aP, av, aop, aop == .remove⟩]) aop aP
            (us ++ [(⟨aP, av, aop, aop == .remove⟩ : ArenaUpd)]).length =
            .error .notFound := by
          rw [hlen2, arenaWriteScan, hget]
          simp only [hpe, if_true]
          rw [if_pos (by subst hrm; exact ⟨rfl, by simp⟩)]
        rw [hstep]
      · have hrmb : (aop == PatchOp.remove) = false := by
          cases aop <;> simp_all
        have hstep : arenaWriteScan (us ++ [⟨aP, av, aop, aop == .remove⟩]) aop aP
            (us ++ [(⟨aP, av, aop, aop == .remove⟩ : ArenaUpd)]).length =
            .ok us := by
          rw [hlen2, arenaWriteScan, hget]
          simp only [hpe, if_true]
          rw [if_neg (by rw [hrmb]; simp)]
          rw [eraseIdx_concat]
        rw [hstep]

/-- C8 witness: the theorem at empty transactions of both engines, a
first successful `Add /a 7` (tree) and `Add /b 3` (arena). -/
theorem c8_double_write_idempotent_witness :
    (treeWrite ⟨.obj [], 0⟩
        (treeWrite ⟨.obj [], 0⟩ ⟨[], none, true⟩ .add [[97]] (.int 7)).1
        .add [[97]] (.int 7)).1.updates.length =
      (treeWrite ⟨.obj [], 0⟩ ⟨[], none, true⟩ .add [[97]] (.int 7)).1.updates.length ∧
    (arenaWrite (arenaWrite ⟨-1, [], true, false⟩ .add [[98]] (.int 3)).1
        .add [[98]] (.int 3)).1.updates.length =
      (arenaWrite ⟨-1, [], true, false⟩ .add [[98]] (.int 3)).1.updates.length :=
  c8_double_write_idempotent ⟨.obj [], 0⟩ ⟨[], none, true⟩ ⟨-1, [], true, false⟩
    .add .add [[97]] [[98]] (.int 7) (.int 3)
    rfl rfl (by simp [pathIndexThreshold]) (by simp)
    (by simp) rfl rfl (by simp) rfl

/-- Distinct single-segment paths never overlap. -/
theorem singleton_unrelated {a b : GoStr} (hk : a ≠ b) : ¬ updOverlap [a] [b] := by
  rintro (⟨t, ht⟩ | ⟨t, ht⟩)
  · simp only [List.cons_append, List.nil_append] at ht
    injection ht with h1 h2
    exact hk h1
  · simp only [List.cons_append, List.nil_append] at ht
    injection ht with h1 h2
    exact hk h1.symm

/-- Against an object document, `newUpdateRaw` at a single-segment path
materialises an update at exactly that path. -/
theorem newUpdateRaw_obj_single {fields : List (GoStr × GoValue)} {op : PatchOp}
    {k : GoStr} {v : GoValue} {u : UpdateRaw}
    (h : newUpdateRaw (.obj fields) op [k] 0 v = .ok u) :
    u.path = [k] := by
  have h2 : (match op with
      | .add => Except.ok (⟨[k], v, false⟩ : UpdateRaw)
      | .replace =>
        match alookup fields k with
        | none => Except.error TErr.notFound
        | some _ => Except.ok (⟨[k], v, false⟩ : UpdateRaw)
      | .remove =>
        match alookup fields k with
        | none => Except.error TErr.notFound
        | some _ => Except.ok (⟨[k], v, true⟩ : UpdateRaw)) = .ok u := h
  cases op with
  | add =>
    injection h2 with h3
    rw [← h3]
  | replace =>
    cases ha : alookup fields k with
    | none => rw [ha] at h2; simp at h2
    | some w =>
      rw [ha] at h2
      injection h2 with h3
      rw [← h3]
  | remove =>
    cases ha : alookup fields k with
    | none => rw [ha] at h2; simp at h2
    | some w =>
      rw [ha] at h2
      injection h2 with h3
      rw [← h3]

/-- The tree commit emits one event per pending update, in slice order,
when triggers are registered. -/
theorem treeCommit_events {db : TreeStore} (txn : TreeTxn)
    (ht : 0 < db.triggersCount) :
    (treeCommit db txn).2 =
      txn.updates.map (fun u => (⟨u.path, u.value, u.remove⟩ : DataEvent)) := by
  have hgen : ∀ (us : List UpdateRaw) (d : GoValue) (evs : List DataEvent),
      (us.foldl (fun (acc : GoValue × List DataEvent) u =>
          (applyRaw u acc.1,
           if 0 < db.triggersCount then acc.2 ++ [⟨u.path, u.value, u.remove⟩]
           else acc.2)) (d, evs)).2
        = evs ++ us.map (fun u => (⟨u.path, u.value, u.remove⟩ : DataEvent)) := by
    intro us
    induction us with
    | nil => intro d evs; simp
    | cons u rest ih =>
      intro d evs
      simp only [List.foldl_cons, List.map_cons]
      rw [ih]
      rw [if_pos ht]
      simp
  exact hgen txn.updates db.data []

/-- A fold that either keeps or appends one event per element produces
the events as a subsequence of the slice-order event list. -/
theorem foldl_events_sublist {σ : Type}
    (g : (σ × List DataEvent) → ArenaUpd → (σ × List DataEvent))
    (hg : ∀ acc u, (g acc u).2 = acc.2 ∨
      (g acc u).2 = acc.2 ++ [⟨u.path, u.value, u.remove⟩]) :
    ∀ (us : List ArenaUpd) (acc : σ × List DataEvent),
      (us.foldl g acc).2.Sublist
        (acc.2 ++ us.map (fun u => (⟨u.path, u.value, u.remove⟩ : DataEvent))) := by
  intro us
  induction us with
  | nil => intro acc; simp
  | cons u rest ih =>
    intro acc
    rw [List.foldl_cons, List.map_cons]
    refine (ih (g acc u)).trans ?_
    rcases hg acc u with h | h
    · rw [h]
      exact List.Sublist.append_left (List.sublist_cons_self _ _) _
    · rw [h, List.append_assoc]
      simp

/-- The arena commit emits its events in slice (chronological) order:
the event list is a subsequence of the per-update event list. -/
theorem arenaTxnCommit_events_sublist (a : ArenaSt) (txn : ArenaTxn) :
    (arenaTxnCommit a txn).2.Sublist
      (txn.updates.map (fun u => (⟨u.path, u.value, u.remove⟩ : DataEvent))) := by
  exact foldl_events_sublist
    (fun (acc : ArenaSt × List DataEvent) u =>
      let r := arenaApplyUpdate acc.1 u
      match r.2 with
      | some _ => (r.1, acc.2)
      | none =>
        (r.1,
         if 0 < r.1.triggersCount then acc.2 ++ [⟨u.path, u.value, u.remove⟩]
         else acc.2))
    (by
      intro acc u
      show ((let r := arenaApplyUpdate acc.1 u
             match r.2 with
             | some _ => (r.1, acc.2)
             | none =>
               (r.1,
                if 0 < r.1.triggersCount then acc.2 ++ [⟨u.path, u.value, u.remove⟩]
                else acc.2)) : ArenaSt × List DataEvent).2 = acc.2 ∨ _
      rcases hr : (arenaApplyUpdate acc.1 u).2 with _ | e
      · by_cases htr : 0 < (arenaApplyUpdate acc.1 u).1.triggersCount
        · right; simp [hr, htr]
        · left; simp [hr, htr]
      · left; simp [hr])
    txn.updates (a, [])

/-- The scan of the arena write leaves the updates untouched when the
written path relates to none of them. -/
theorem arenaWriteScan_unrelated {us : List ArenaUpd} (op : PatchOp) {P : GoPath}
    (h : ∀ u ∈ us, ¬ updOverlap u.path P) :
    ∀ i, arenaWriteScan us op P i = .ok us := by
  intro i
  induction i with
  | zero => rfl
  | succ n ih =>
    cases hg : us.get? n with
    | none =>
      rw [arenaWriteScan, hg]
      exact ih
    | some u =>
      have hu : u ∈ us := List.get?_mem hg
      rw [arenaWriteScan, hg]
      simp only [show pathEqual u.path P = false from
          pathEqual_false_iff.mpr (fun he => h u hu (Or.inl (he ▸ List.prefix_refl _))),
        show pathHasPrefix u.path P = false from
          pathHasPrefix_false_iff.mpr (fun hp => h u hu (Or.inr hp)),
        show pathHasPrefix P u.path = false from
          pathHasPrefix_false_iff.mpr (fun hp => h u hu (Or.inl hp)),
        Bool.false_eq_true, if_false]
      exact ih

/-- An arena write at a non-empty path unrelated to every pending update
appends the new update and succeeds. -/
theorem arenaWrite_fresh {atxn : ArenaTxn} (op : PatchOp) {P : GoPath} (v : GoValue)
    (haw : atxn.write = true) (hP : P ≠ [])
    (h : ∀ u ∈ atxn.updates, ¬ updOverlap u.path P) :
    arenaWrite atxn op P v =
      ({ atxn with updates := atxn.updates ++ [⟨P, v, op, op == .remove⟩] }, none) := by
  unfold arenaWrite
  rw [haw]
  simp only [Bool.true_eq_false, if_false, if_neg hP]
  rw [arenaWriteScan_unrelated op h]

/--
C2 (amended): the two engines commit in opposite orders.  The tree
engine records pending writes newest-first (a fresh write prepends) and
its Commit folds and emits events in slice order, so for two successful
writes at distinct top-level keys against an object document the commit
event list starts with the later write — reverse-chronological order.
The arena engine appends each write and its Commit processes the slice
front-to-back (any events form a subsequence of the slice-order event
list), so updates are re-applied in chronological order, not LIFO.
-/
theorem c2_commit_order_amended
    (db : TreeStore) (txn : TreeTxn) (fields : List (GoStr × GoValue))
    (op1 op2 : PatchOp) (k1 k2 : GoStr) (v1 v2 : GoValue)
    (a0 : ArenaSt) (atxn : ArenaTxn) (aop1 aop2 : PatchOp)
    (aP1 aP2 : GoPath) (av1 av2 : GoValue)
    (hdb : db.data = .obj fields)
    (hw : txn.write = true) (hidx : txn.pathIndex = none)
    (hlen : txn.updates.length + 2 < pathIndexThreshold)
    (hk : k1 ≠ k2)
    (hunrel1 : ∀ u ∈ txn.updates, ¬ updOverlap u.path [k1])
    (hunrel2 : ∀ u ∈ txn.updates, ¬ updOverlap u.path [k2])
    (ht : 0 < db.triggersCount)
    (hsucc1 : (treeWrite db txn op1 [k1] v1).2 = none)
    (hsucc2 : (treeWrite db (treeWrite db txn op1 [k1] v1).1 op2 [k2] v2).2 = none)
    (haw : atxn.write = true) (haP1 : aP1 ≠ []) (haP2 : aP2 ≠ [])
    (haunrel1 : ∀ u ∈ atxn.updates, ¬ updOverlap u.path aP1)
    (haunrel2 : ∀ u ∈ atxn.updates, ¬ updOverlap u.path aP2)
    (hap12 : ¬ updOverlap aP1 aP2) :
    ((treeCommit db
        (treeWrite db (treeWrite db txn op1 [k1] v1).1 op2 [k2] v2).1).2.map
          (fun e => e.path) =
      [k2] :: [k1] :: txn.updates.map (fun u => u.path)) ∧
    ((arenaWrite (arenaWrite atxn aop1 aP1 av1).1 aop2 aP2 av2).1.updates =
        atxn.updates ++ [⟨aP1, av1, aop1, aop1 == .remove⟩,
          ⟨aP2, av2, aop2, aop2 == .remove⟩] ∧
      (arenaTxnCommit a0
          (arenaWrite (arenaWrite atxn aop1 aP1 av1).1 aop2 aP2 av2).1).2.Sublist
        ((atxn.updates ++ ([⟨aP1, av1, aop1, aop1 == .remove⟩,
            ⟨aP2, av2, aop2, aop2 == .remove⟩] : List ArenaUpd)).map
          (fun u => (⟨u.path, u.value, u.remove⟩ : DataEvent)))) := by
  constructor
  · -- tree engine: prepend + slice-order commit = newest first
    have h1 := treeWrite_fresh db op1 v1 hw hidx (by
      unfold pathIndexThreshold at hlen ⊢; omega) (by simp) hunrel1
    rcases hnu1 : newUpdateRaw db.data op1 [k1] 0 v1 with e | nu1
    · rw [hnu1] at h1
      rw [h1] at hsucc1
      simp at hsucc1
    · rw [hnu1] at h1
      have hp1 : nu1.path = [k1] := by
        rw [hdb] at hnu1
        exact newUpdateRaw_obj_single hnu1
      have hw2' : (⟨nu1 :: txn.updates, none, txn.write⟩ : TreeTxn).write = true := hw
      have hunrel2' : ∀ u ∈ (⟨nu1 :: txn.updates, none, txn.write⟩ : TreeTxn).updates,
          ¬ updOverlap u.path [k2] := by
        intro u hu
        rcases List.mem_cons.mp hu with hu | hu
        · rw [hu, hp1]
          exact singleton_unrelated hk
        · exact hunrel2 u hu
      have h2 := treeWrite_fresh db op2 v2 hw2' rfl (by
        show (nu1 :: txn.updates).length < pathIndexThreshold
        simp only [List.length_cons]
        unfold pathIndexThreshold at hlen ⊢
        omega) (by simp) hunrel2'
      rcases hnu2 : newUpdateRaw db.data op2 [k2] 0 v2 with e | nu2
      · rw [hnu2] at h2
        have hsucc2' : (treeWrite db ⟨nu1 :: txn.updates, none, txn.write⟩
            op2 [k2] v2).2 = none := by
          rw [h1] at hsucc2
          exact hsucc2
        rw [h2] at hsucc2'
        simp at hsucc2'
      · rw [hnu2] at h2
        have hp2 : nu2.path = [k2] := by
          rw [hdb] at hnu2
          exact newUpdateRaw_obj_single hnu2
        have hcomposed : (treeWrite db (treeWrite db txn op1 [k1] v1).1
            op2 [k2] v2).1 = ⟨nu2 :: nu1 :: txn.updates, none, txn.write⟩ := by
          rw [h1]
          show (treeWrite db ⟨nu1 :: txn.updates, none, txn.write⟩ op2 [k2] v2).1 = _
          rw [h2]
        rw [hcomposed, treeCommit_events _ ht]
        simp [hp1, hp2]
  · -- arena engine: append + slice-order commit = chronological
    have ha1 := arenaWrite_fresh aop1 av1 haw haP1 haunrel1
    have hw2' : ({ atxn with updates :=
        atxn.updates ++ [⟨aP1, av1, aop1, aop1 == .remove⟩] } : ArenaTxn).write
        = true := haw
    have haunrel2' : ∀ u ∈ ({ atxn with updates :=
        atxn.updates ++ [⟨aP1, av1, aop1, aop1 == .remove⟩] } : ArenaTxn).updates,
        ¬ updOverlap u.path aP2 := by
      intro u hu
      rcases List.mem_append.mp hu with hu | hu
      · exact haunrel2 u hu
      · have heq : u = ⟨aP1, av1, aop1, aop1 == .remove⟩ := by simpa using hu
        rw [heq]
        exact hap12
    have ha2 := arenaWrite_fresh aop2 av2 hw2' haP2 haunrel2'
    have hcomposed : (arenaWrite (arenaWrite atxn aop1 aP1 av1).1 aop2 aP2 av2).1
        = { atxn with updates := atxn.updates ++
            [⟨aP1, av1, aop1, aop1 == .remove⟩, ⟨aP2, av2, aop2, aop2 == .remove⟩] } := by
      rw [ha1]
      show (arenaWrite ({ atxn with updates :=
        atxn.updates ++ [⟨aP1, av1, aop1, aop1 == .remove⟩] } : ArenaTxn)
        aop2 aP2 av2).1 = _
      rw [ha2]
      simp
    rw [hcomposed]
    exact ⟨rfl, arenaTxnCommit_events_sublist a0 _⟩

/-- C2 witness: the amended theorem at concrete transactions — tree
writes `Add /a 1` then `Add /b 2` (events list `/b` first), arena writes
`Add /c 1` then `Add /d 2` (updates appended chronologically). -/
theorem c2_commit_order_amended_witness :
    ((treeCommit ⟨.obj [], 1⟩
        (treeWrite ⟨.obj [], 1⟩
          (treeWrite ⟨.obj [], 1⟩ ⟨[], none, true⟩ .add [[97]] (.int 1)).1
          .add [[98]] (.int 2)).1).2.map (fun e => e.path) =
      [[98]] :: [[97]] :: ([] : List UpdateRaw).map (fun u => u.path)) ∧
    ((arenaWrite (arenaWrite ⟨-1, [], true, false⟩ .add [[99]] (.int 1)).1
        .add [[100]] (.int 2)).1.updates =
        [] ++ [⟨[[99]], .int 1, .add, PatchOp.add == PatchOp.remove⟩,
          ⟨[[100]], .int 2, .add, PatchOp.add == PatchOp.remove⟩] ∧
      (arenaTxnCommit ⟨[], -1, -1, 0, 0⟩
          (arenaWrite (arenaWrite ⟨-1, [], true, false⟩ .add [[99]] (.int 1)).1
            .add [[100]] (.int 2)).1).2.Sublist
        (([] ++ [⟨[[99]], .int 1, .add, PatchOp.add == PatchOp.remove⟩,
            ⟨[[100]], .int 2, .add, PatchOp.add == PatchOp.remove⟩] : List ArenaUpd).map
          (fun u => (⟨u.path, u.value, u.remove⟩ : DataEvent)))) :=
  c2_commit_order_amended ⟨.obj [], 1⟩ ⟨[], none, true⟩ []
    .add .add [97] [98] (.int 1) (.int 2)
    ⟨[], -1, -1, 0, 0⟩ ⟨-1, [], true, false⟩ .add .add
    [[99]] [[100]] (.int 1) (.int 2)
    rfl rfl rfl (by simp [pathIndexThreshold]) (by decide)
    (by simp) (by simp) (by simp) rfl rfl
    rfl (by simp) (by simp) (by simp) (by simp)
    (by exact singleton_unrelated (by decide))

/-! ## PolicyStore (v1/storage/arena/breakeven_test.go)

`StringHandle` interning is value-preserving (`InternString`/`GetString`
are mutually inverse), so policy ids are embedded as the strings
themselves.  The Go chain walks can loop forever on a cyclic chain, so
the walks take fuel and return `none` on exhaustion or on an
out-of-range node index (a Go panic); the callers pass fuel larger than
any acyclic chain. -/

/-- `policyNode` (breakeven_test.go). -/
structure PolicyNode where
  id : GoStr
  data : List Nat
  next : Int
  removed : Bool

/-- `PolicyStore` (breakeven_test.go). -/
structure PolicyStore where
  head : Int
  nodes : List PolicyNode
  count : Int

/-- `NewPolicyStore` (breakeven_test.go). -/
def psEmpty : PolicyStore := ⟨-1, [], 0⟩

/-- The reuse scan of `PolicyStore.alloc`: the first removed node. -/
def psAllocScan : List PolicyNode → Nat → Option Nat
  | [], _ => none
  | n :: rest, i => if n.removed then some i else psAllocScan rest (i + 1)

/-- `PolicyStore.alloc` (breakeven_test.go): reuse the first removed
node (clearing its tombstone and data), else append a fresh node. -/
def psAlloc (ps : PolicyStore) : PolicyStore × Nat :=
  match psAllocScan ps.nodes 0 with
  | some i =>
    match ps.nodes.get? i with
    | some n =>
      ({ ps with nodes := ps.nodes.set i { n with removed := false, data := [] } }, i)
    | none => (ps, i)
  | none =>
    ({ ps with nodes := ps.nodes ++ [⟨[], [], -1, false⟩] }, ps.nodes.length)

/-- The search loop of `PolicyStore.Upsert`: `.error` is a hit index,
`.ok` the predecessor after a miss. -/
def psSearch : PolicyStore → GoStr → Int → Int → Nat → Option (Except Int Int)
  | _, _, _, _, 0 => none
  | ps, pid, curr, prev, fuel + 1 =>
    if curr = -1 then some (.ok prev)
    else
      match (if 0 ≤ curr then ps.nodes.get? curr.toNat else none) with
      | none => none
      | some n =>
        if n.removed = false ∧ n.id == pid then some (.error curr)
        else psSearch ps pid n.next curr fuel

/-- `PolicyStore.Upsert` (breakeven_test.go): on a hit replace the
payload; on a miss allocate, fill the node (with `next = -1`), and link
it at the tail recorded by the search. -/
def psUpsert (ps : PolicyStore) (pid : GoStr) (data : List Nat) :
    Option PolicyStore :=
  match psSearch ps pid ps.head (-1) (ps.nodes.length + 1) with
  | none => none
  | some (.error hit) =>
    match (if 0 ≤ hit then ps.nodes.get? hit.toNat else none) with
    | none => none
    | some n => some { ps with nodes := ps.nodes.set hit.toNat { n with data := data } }
  | some (.ok prev) =>
    let r := psAlloc ps
    match r.1.nodes.get? r.2 with
    | none => none
    | some n0 =>
      let n1 : PolicyNode := { n0 with id := pid, data := data, next := -1, removed := false }
      let ps2 : PolicyStore := { r.1 with nodes := r.1.nodes.set r.2 n1 }
      if ps2.head = -1 then
        some { ps2 with head := Int.ofNat r.2, count := ps2.count + 1 }
      else
        match (if 0 ≤ prev then ps2.nodes.get? prev.toNat else none) with
        | none => none
        | some np =>
          let np1 : PolicyNode := { np with next := Int.ofNat r.2 }
          some { ps2 with nodes := ps2.nodes.set prev.toNat np1, count := ps2.count + 1 }

/-- The walk of `PolicyStore.Get`. -/
def psGetAux : PolicyStore → GoStr → Int → Nat → Option (Except TErr (List Nat))
  | _, _, _, 0 => none
  | ps, pid, curr, fuel + 1 =>
    if curr = -1 then some (.error .notFound)
    else
      match (if 0 ≤ curr then ps.nodes.get? curr.toNat else none) with
      | none => none
      | some n =>
        if n.removed = false ∧ n.id == pid then some (.ok n.data)
        else psGetAux ps pid n.next fuel

/-- `PolicyStore.Get` (breakeven_test.go). -/
def psGet (ps : PolicyStore) (pid : GoStr) : Option (Except TErr (List Nat)) :=
  psGetAux ps pid ps.head (ps.nodes.length + 1)

/-- The walk of `PolicyStore.Delete`. -/
def psDeleteAux : PolicyStore → GoStr → Int → Nat →
    Option (PolicyStore × Option TErr)
  | _, _, _, 0 => none
  | ps, pid, curr, fuel + 1 =>
    if curr = -1 then some (ps, some .notFound)
    else
      match (if 0 ≤ curr then ps.nodes.get? curr.toNat else none) with
      | none => none
      | some n =>
        if n.removed = false ∧ n.id == pid then
          let n1 : PolicyNode := { n with removed := true }
          some ({ ps with nodes := ps.nodes.set curr.toNat n1, count := ps.count - 1 }, none)
        else psDeleteAux ps pid n.next fuel

/-- `PolicyStore.Delete` (breakeven_test.go): tombstone the node in
place without unlinking it. -/
def psDelete (ps : PolicyStore) (pid : GoStr) :
    Option (PolicyStore × Option TErr) :=
  psDeleteAux ps pid ps.head (ps.nodes.length + 1)

/-- The walk of `PolicyStore.List`: active ids in chain order. -/
def psListAux : PolicyStore → Int → Nat → Option (List GoStr)
  | _, _, 0 => none
  | ps, curr, fuel + 1 =>
    if curr = -1 then some []
    else
      match (if 0 ≤ curr then ps.nodes.get? curr.toNat else none) with
      | none => none
      | some n =>
        match psListAux ps n.next fuel with
        | none => none
        | some rest => some (if n.removed then rest else n.id :: rest)

/-- `PolicyStore.List` (breakeven_test.go). -/
def psList (ps : PolicyStore) : Option (List GoStr) :=
  if ps.count = 0 then some []
  else psListAux ps ps.head (ps.nodes.length + 1)

/-- The C4 scenario: Upsert `a`, `b`, `c`; Delete `b`; Upsert `d`. -/
def c4Scenario : Option PolicyStore :=
  (psUpsert psEmpty [97] [1]).bind fun s1 =>
  (psUpsert s1 [98] [2]).bind fun s2 =>
  (psUpsert s2 [99] [3]).bind fun s3 =>
  (psDelete s3 [98]).bind fun r =>
  psUpsert r.1 [100] [4]

/--
C4: the claimed Upsert postcondition fails.  After Upsert `a`, `b`, `c`,
Delete `b` and Upsert `d`, the Upsert of `d` reuses the tombstoned but
still-linked node of `b` and resets its `next` pointer to `-1`, cutting
`c` out of the chain: `Get c` reports NotFound and `List` omits `c`,
though `c` was inserted, never deleted, and is still counted
(`count = 3`).
-/
theorem c4_policy_upsert_unlinks_chain :
    c4Scenario.map (fun ps => (psGet ps [99], psList ps, ps.count)) =
      some (some (.error .notFound), some [[97], [100]], 3) := by
  rfl

/-! ## The adaptive index against the linear scan (C3) -/

/-- Modelled from the spec: the linear-scan reference semantics of
`transaction.Write` — "looking a path string up in the index finds an
entry if and only if a linear scan of the pending updates finds an
update with an Equal path" — i.e. the write path with the adaptive
index never built or consulted. -/
def treeWriteNoIndex (db : TreeStore) (txn : TreeTxn) (op : PatchOp)
    (path : GoPath) (value : GoValue) : TreeTxn × Option TErr :=
  if txn.write = false then (txn, some .invalidTransaction)
  else if path = [] then treeUpdateRoot txn op value
  else
    match txn.updates.findIdx? (fun u => pathEqual u.path path) with
    | some i =>
      match txn.updates.get? i with
      | none => (txn, some .outOfRange)
      | some u =>
        if u.remove = true ∧ op ≠ .add then (txn, some .notFound)
        else if comparableEquals u.value value then (txn, none)
        else treeWritePrefix db { txn with updates := txn.updates.eraseIdx i } op path value
    | none => treeWritePrefix db txn op path value

/-- The C3 write sequence: seventeen fresh top-level writes (the
seventeenth begins with sixteen pending updates, so the indexed engine
builds the path index), then a root write, then a write at the sixth
key. -/
def c3Paths : List GoPath := (List.range 17).map (fun i => [[65 + i]])

/-- The C3 scenario on the indexed engine (`transaction.Write`). -/
def c3RunIndexed : TreeTxn × Option TErr :=
  let db : TreeStore := ⟨.obj [], 0⟩
  let t1 := c3Paths.foldl (fun t p => (treeWrite db t .add p (.int 1)).1)
    ⟨[], none, true⟩
  let t2 := (treeWrite db t1 .add [] (.obj [])).1
  treeWrite db t2 .add [[70]] (.int 99)

/-- The C3 scenario on the linear-scan reference. -/
def c3RunLinear : TreeTxn × Option TErr :=
  let db : TreeStore := ⟨.obj [], 0⟩
  let t1 := c3Paths.foldl (fun t p => (treeWriteNoIndex db t .add p (.int 1)).1)
    ⟨[], none, true⟩
  let t2 := (treeWriteNoIndex db t1 .add [] (.obj [])).1
  treeWriteNoIndex db t2 .add [[70]] (.int 99)

/--
C3: the adaptive exact-path index is not observationally equivalent to
the linear scan.  `transaction.updateRoot` replaces the pending updates
but leaves the path index stale, so on the C3 write sequence the final
write looks up a stale index entry (11) far beyond the one remaining
update and hits the out-of-range branch (a Go panic on
`txn.updates[idx]`), while the same sequence under the linear-scan
reference semantics succeeds.
-/
theorem c3_index_diverges_from_linear :
    c3RunIndexed.2 = some .outOfRange ∧
    c3RunLinear.2 = none ∧
    c3RunIndexed.1.updates.length = 1 := by
  exact ⟨rfl, rfl, rfl⟩

end OpaStore
